import Mathlib

/-!
# D-LAN file cache: `FM::File`

A shallow embedding of `application/Core/FileManager/priv/Cache/File.cpp`.

* A `File` value is the state of one `FM::File` object.
* Every method is a function from the state before the call to an `Out`: the state after the
  call, the calls made to the collaborators (Cache, FilePool, file system, parent directory) in
  program order, and either the returned value or the exception raised.  A C++ exception leaves
  the members as they were when it was thrown, so the state is returned in that case too.
* The answers of the collaborators (does the pool open the file, does the seek succeed, ...) are
  arguments of the method.
* `qint64` and `int` values are integers; the narrowing of a `qint64` to an `int` is `toInt`,
  the conversions between a `qint64` and the `uint64` of a record are `toInt64` and `toUInt64`.
  Counters are incremented and decremented as integers.
* Mutexes are not modelled: a method runs from its first to its last statement.
-/

namespace DLAN

/-! ## Values -/

/-- A `QString`, as the sequence of its characters. -/
abbrev QString := List Char

/-- Narrowing of an integer to a 32 bit `int` (two's complement), as done when a `qint64`
expression is returned or stored as an `int`. -/
def toInt (x : Int) : Int :=
  (x + 2147483648) % 4294967296 - 2147483648

/-- Modelled from the spec: `Common::Hash`, whose class is not among the sources. A hash is the
distinguished null value ("unknown") or a sequence of bytes. -/
inductive Hash where
  | null : Hash
  | bytes (data : List Nat) : Hash
  deriving DecidableEq, Repr

/-- Modelled from the spec: `Common::Hash::isNull`. -/
def Hash.isNull : Hash → Bool
  | Hash.null => true
  | Hash.bytes _ => false

/-- Modelled from the spec: `Global::isFileUnfinished(name)`, whose body is not among the
sources: the name ends with the configured unfinished suffix (`unfinished_suffix_term`). -/
def isFileUnfinished (unfinishedSuffix : QString) (name : QString) : Bool :=
  unfinishedSuffix.isSuffixOf name

/-- Modelled from the spec: `Global::removeUnfinishedSuffix(name)`, whose body is not among the
sources: the name with the unfinished suffix stripped from its end, when it carries it. -/
def removeUnfinishedSuffix (unfinishedSuffix : QString) (name : QString) : QString :=
  if isFileUnfinished unfinishedSuffix name then
    name.take (name.length - unfinishedSuffix.length)
  else
    name

/-- The value of `File::getNbChunks()` for a file of the given size:
`getSize() / CHUNK_SIZE + (getSize() % CHUNK_SIZE == 0 ? 0 : 1)`, a `qint64` returned as `int`. -/
def getNbChunks (CHUNK_SIZE : Int) (size : Int) : Int :=
  toInt (Int.tdiv size CHUNK_SIZE + (if Int.tmod size CHUNK_SIZE = 0 then 0 else 1))

/-! ## Chunks -/

/-- Modelled from the spec: the members of `FM::Chunk` (the class is not among the sources):
its 0-based position `num` in the file, the number of known bytes and the hash (null until
known). The back-reference to the file is the file the chunk is stored in. -/
structure Chunk where
  num : Int
  knownBytes : Int
  hash : Hash
  deriving DecidableEq, Repr

/-- Modelled from the spec: `Chunk::getChunkSize()`: `CHUNK_SIZE`, except for the last chunk of
the file, whose size is the remainder of the file size when that is not zero. -/
def Chunk.getChunkSize (CHUNK_SIZE : Int) (fileSize : Int) (c : Chunk) : Int :=
  if c.num = getNbChunks CHUNK_SIZE fileSize - 1 ∧ Int.tmod fileSize CHUNK_SIZE ≠ 0 then
    Int.tmod fileSize CHUNK_SIZE
  else
    CHUNK_SIZE

/-- Modelled from the spec: `Chunk::isComplete()`: `knownBytes == chunkSize(index)`. -/
def Chunk.isComplete (CHUNK_SIZE : Int) (fileSize : Int) (c : Chunk) : Bool :=
  c.knownBytes == c.getChunkSize CHUNK_SIZE fileSize

/-- Modelled from the spec: `Chunk::hasHash()`: the hash is not null. -/
def Chunk.hasHash (c : Chunk) : Bool :=
  !c.hash.isNull

/-- Modelled from the spec: `Chunk::setKnownBytes(n)`. -/
def Chunk.setKnownBytes (n : Int) (c : Chunk) : Chunk :=
  { c with knownBytes := n }

/-! ## Calls to the collaborators -/

/-- The mode a file is opened with through the pool. -/
inductive OpenMode where
  | ReadOnly : OpenMode
  | ReadWrite : OpenMode
  deriving DecidableEq, Repr

/-- A call made by a `File` method to the Cache, the FilePool, a pooled `QFile`, the file system,
the parent directory, one of its chunks (`Chunk::fileDeleted`), its base class (`Entry::del`) or
the log. The chunk of a call is the chunk as it is at the call. -/
inductive Call where
  | onChunkHashKnown (chunk : Chunk) : Call
  | onChunkRemoved (chunk : Chunk) : Call
  | onEntryAdded (name : QString) : Call
  | onEntryRemoved (name : QString) : Call
  | poolOpen (path : QString) (mode : OpenMode) : Call
  | poolRelease (file : Option Nat) (forceClose : Bool) : Call
  | poolForceReleaseAll (path : QString) : Call
  | resize (file : Nat) (size : Int) : Call
  | seek (file : Nat) (offset : Int) : Call
  | write (file : Nat) (nbBytes : Int) : Call
  | read (file : Nat) (maxBytes : Int) : Call
  | fsOpenWriteOnly (path : QString) : Call
  | fsResize (path : QString) (size : Int) : Call
  | fsRemove (path : QString) : Call
  | fsRename (oldPath newPath : QString) : Call
  | dirAdd (name : QString) : Call
  | dirFileDeleted (name : QString) : Call
  | dirFileNameChanged (name : QString) : Call
  | dirFileSizeChanged (oldSize newSize : Int) : Call
  | chunkFileDeleted (chunk : Chunk) : Call
  | entryDel (invokeDelete : Bool) : Call
  | logError : Call
  | logWarning : Call
  deriving DecidableEq, Repr

/-- The exceptions raised by the methods of `File`. -/
inductive Exn where
  | UnableToCreateNewFileException : Exn
  | UnableToOpenFileInWriteModeException : Exn
  | UnableToOpenFileInReadModeException : Exn
  | FileResetException : Exn
  | IOErrorException : Exn
  deriving DecidableEq, Repr

/-- How a call ends: with a value, or with an exception. -/
inductive Result (α : Type) where
  | ok (value : α) : Result α
  | raised (e : Exn) : Result α
  deriving DecidableEq, Repr

/-- The value a call ended with, when it raised no exception. -/
def Result.value? {α : Type} : Result α → Option α
  | Result.ok a => some a
  | Result.raised _ => none

/-! ## The file -/

/-- The members of `FM::File` (with those of `Entry`): `dirFullPath` is
`this->dir->getFullPath()`, a handle slot is `none` for `nullptr` and `some h` for the pooled
`QFile` number `h`, the date is in milliseconds. -/
structure File where
  dirFullPath : QString
  name : QString
  size : Int
  dateLastModified : Int
  complete : Bool
  numDataWriter : Int
  numDataReader : Int
  fileInWriteMode : Option Nat
  fileInReadMode : Option Nat
  chunks : List Chunk
  deriving DecidableEq, Repr

/-- The outcome of a method: the file after the call, the calls made, the result. -/
structure Out (α : Type) where
  file : File
  calls : List Call
  result : Result α

/-- Method `File::getFullPath()`. -/
def File.getFullPath (f : File) : QString :=
  f.dirFullPath ++ f.name

/-- Method `File::getNbChunks()`. -/
def File.getNbChunks (CHUNK_SIZE : Int) (f : File) : Int :=
  DLAN.getNbChunks CHUNK_SIZE f.size

/-- Method `File::isComplete()`. -/
def File.isComplete (f : File) : Bool :=
  f.complete

/-- Method `File::deleteAllChunks()`. -/
def File.deleteAllChunks (f : File) : File × List Call :=
  ({ f with chunks := [] }, f.chunks.map Call.onChunkRemoved)

/-- The value given to `chunkKnownBytes` in the body of the loop of `File::setHashes`. -/
def File.chunkKnownBytes (CHUNK_SIZE : Int) (f : File) (i : Int) : Int :=
  toInt (if !f.isComplete then 0
    else if i = f.getNbChunks CHUNK_SIZE - 1 ∧ Int.tmod f.size CHUNK_SIZE ≠ 0 then
      Int.tmod f.size CHUNK_SIZE
    else CHUNK_SIZE)

/-- One turn of the loop of `File::setHashes`, for the index `i`. -/
def File.setHashesBody (CHUNK_SIZE : Int) (hashes : List Hash) (st : File × List Call) (i : Nat) :
    File × List Call :=
  let f := st.1
  let chunkKnownBytes := f.chunkKnownBytes CHUNK_SIZE i
  if i < hashes.length ∧ (hashes.getD i Hash.null).isNull = false then
    let chunk : Chunk := { num := i, knownBytes := chunkKnownBytes, hash := hashes.getD i Hash.null }
    let g : File := { f with chunks := f.chunks ++ [chunk] }
    if chunk.isComplete CHUNK_SIZE g.size then
      (g, st.2 ++ [Call.onChunkHashKnown chunk])
    else
      (g, st.2)
  else
    ({ f with chunks := f.chunks ++ [{ num := i, knownBytes := chunkKnownBytes, hash := Hash.null }] },
      st.2)

/-- The chunk that the turn `i` of the loop of `File::setHashes` appends. -/
def File.seedChunk (CHUNK_SIZE : Int) (hashes : List Hash) (f : File) (i : Nat) : Chunk :=
  { num := i
    knownBytes := f.chunkKnownBytes CHUNK_SIZE i
    hash := if i < hashes.length ∧ (hashes.getD i Hash.null).isNull = false then
        hashes.getD i Hash.null
      else Hash.null }

/-- Method `File::setHashes(hashes)`: the loop runs for `i` from 0 while `i < getNbChunks()`
(the size does not change in the loop). -/
def File.setHashes (CHUNK_SIZE : Int) (hashes : List Hash) (f : File) : File × List Call :=
  (List.range (f.getNbChunks CHUNK_SIZE).toNat).foldl (File.setHashesBody CHUNK_SIZE hashes) (f, [])

/-- Method `File::createPhysicalFile()`. `openOk` and `resizeOk` are the answers of
`QFile::open(WriteOnly)` and `QFile::resize`, `fsDate` the date the file system has for the new
file. -/
def File.createPhysicalFile (unfinishedSuffix : QString) (openOk resizeOk : Bool) (fsDate : Int)
    (f : File) : Out Unit :=
  if f.size > 0 ∧ isFileUnfinished unfinishedSuffix f.name = false then
    { file := f, calls := [Call.logError], result := Result.ok () }
  else if openOk = false then
    { file := f, calls := [Call.fsOpenWriteOnly f.getFullPath, Call.fsRemove f.getFullPath],
      result := Result.raised Exn.UnableToCreateNewFileException }
  else if resizeOk = false then
    { file := f,
      calls := [Call.fsOpenWriteOnly f.getFullPath, Call.fsResize f.getFullPath f.size,
        Call.fsRemove f.getFullPath],
      result := Result.raised Exn.UnableToCreateNewFileException }
  else
    { file := { f with dateLastModified := fsDate },
      calls := [Call.fsOpenWriteOnly f.getFullPath, Call.fsResize f.getFullPath f.size],
      result := Result.ok () }

/-- The members as set by the initialiser list of the constructor `File::File`. -/
def File.init (unfinishedSuffix : QString) (dirFullPath name : QString) (size : Int)
    (dateLastModified : Int) (createPhysically : Bool) : File :=
  let entryName := name ++ (if createPhysically ∧ size > 0 then unfinishedSuffix else [])
  { dirFullPath := dirFullPath
    name := entryName
    size := size
    dateLastModified := dateLastModified
    complete := !isFileUnfinished unfinishedSuffix entryName
    numDataWriter := 0
    numDataReader := 0
    fileInWriteMode := none
    fileInReadMode := none
    chunks := [] }

/-- Constructor `File::File(dir, name, size, dateLastModified, hashes, createPhysically)`. When
the physical creation fails the entity is deleted and the exception goes on: no file is built. -/
def File.ctor (unfinishedSuffix : QString) (CHUNK_SIZE : Int) (dirFullPath name : QString)
    (size : Int) (dateLastModified : Int) (hashes : List Hash) (createPhysically : Bool)
    (openOk resizeOk : Bool) (fsDate : Int) : Result (File × List Call) :=
  let f0 := File.init unfinishedSuffix dirFullPath name size dateLastModified createPhysically
  let created : Out Unit :=
    if createPhysically then f0.createPhysicalFile unfinishedSuffix openOk resizeOk fsDate
    else { file := f0, calls := [], result := Result.ok () }
  match created.result with
  | Result.raised e => Result.raised e
  | Result.ok _ =>
    let seeded := created.file.setHashes CHUNK_SIZE hashes
    Result.ok (seeded.1, created.calls ++ seeded.2 ++ [Call.dirAdd seeded.1.name])

/-- Modelled from the spec: `Entry::setSize(size)`, whose body is not among the sources: the
entry takes the new size. -/
def File.setSize (size : Int) (f : File) : File :=
  { f with size := size }

/-- Method `File::setToUnfinished(size, hashes)`. `now` is `QDateTime::currentDateTime()`, the
other answers are those of `createPhysicalFile`, which may raise once the members are set. -/
def File.setToUnfinished (unfinishedSuffix : QString) (CHUNK_SIZE : Int) (size : Int)
    (hashes : List Hash) (now : Int) (openOk resizeOk : Bool) (fsDate : Int) (f : File) : Out Unit :=
  let f1 : File := { f with complete := false }
  let f2 : File := { f1 with name := f1.name ++ unfinishedSuffix }
  let f3 := f2.setSize size
  let f4 : File := { f3 with dateLastModified := now }
  let deleted := f4.deleteAllChunks
  let seeded := deleted.1.setHashes CHUNK_SIZE hashes
  let created := seeded.1.createPhysicalFile unfinishedSuffix openOk resizeOk fsDate
  { file := created.file
    calls := [Call.onEntryRemoved f1.name] ++ deleted.2 ++ seeded.2 ++ created.calls
    result := created.result }

/-- Modelled from the spec: `Entry::rename(newName)`, whose body is not among the sources: the
entry takes the new name. -/
def File.entryRename (newName : QString) (f : File) : File :=
  { f with name := newName }

/-- Method `File::rename(newName)`. -/
def File.rename (newName : QString) (f : File) : File × List Call :=
  let g := f.entryRename newName
  (g, [Call.dirFileNameChanged g.name])

/-- The loop of `File::newDataWriterCreated` over the chunks, run when the pool has created the
file: the chunks after the loop, the calls made, and the value of `fileReset`. -/
def resetChunks : List Chunk → List Chunk × List Call × Bool
  | [] => ([], [], false)
  | chunk :: rest =>
    let r := resetChunks rest
    if chunk.knownBytes ≠ 0 then
      (chunk.setKnownBytes 0 :: r.1, Call.onChunkRemoved (chunk.setKnownBytes 0) :: r.2.1, true)
    else
      (chunk :: r.1, r.2.1, r.2.2)

/-- Method `File::newDataWriterCreated()`. `opened` is what `FilePool::open` returns (`none` for a
null pointer), `fileCreated` what it reports, `resizeOk` the answer of `QFile::resize`. The call
`setFileAsSparse` changes no member and is left out. -/
def File.newDataWriterCreated (opened : Option Nat) (fileCreated : Bool) (resizeOk : Bool)
    (f : File) : Out Unit :=
  let f1 : File := { f with numDataWriter := f.numDataWriter + 1 }
  if f1.numDataWriter = 1 then
    let f2 : File := { f1 with fileInWriteMode := opened }
    let c2 := [Call.poolOpen f1.getFullPath OpenMode.ReadWrite]
    match opened with
    | none =>
      { file := f2, calls := c2, result := Result.raised Exn.UnableToOpenFileInWriteModeException }
    | some h =>
      if fileCreated then
        if resizeOk = false then
          { file := f2, calls := c2 ++ [Call.resize h f2.size],
            result := Result.raised Exn.UnableToOpenFileInWriteModeException }
        else
          let r := resetChunks f2.chunks
          { file := { f2 with chunks := r.1 }
            calls := c2 ++ [Call.resize h f2.size] ++ r.2.1
            result := if r.2.2 then Result.raised Exn.FileResetException else Result.ok () }
      else
        { file := f2, calls := c2, result := Result.ok () }
  else
    { file := f1, calls := [], result := Result.ok () }

/-- Method `File::newDataReaderCreated()`. `opened` is what `FilePool::open` returns. -/
def File.newDataReaderCreated (opened : Option Nat) (f : File) : Out Unit :=
  let f1 : File := { f with numDataReader := f.numDataReader + 1 }
  if f1.numDataReader = 1 then
    let f2 : File := { f1 with fileInReadMode := opened }
    let c2 := [Call.poolOpen f1.getFullPath OpenMode.ReadOnly]
    match opened with
    | none =>
      { file := f2, calls := c2, result := Result.raised Exn.UnableToOpenFileInReadModeException }
    | some _ => { file := f2, calls := c2, result := Result.ok () }
  else
    { file := f1, calls := [], result := Result.ok () }

/-- Method `File::dataWriterDeleted()`. -/
def File.dataWriterDeleted (f : File) : File × List Call :=
  let f1 : File := { f with numDataWriter := f.numDataWriter - 1 }
  if f1.numDataWriter = 0 then
    ({ f1 with fileInWriteMode := none }, [Call.poolRelease f1.fileInWriteMode false])
  else
    (f1, [])

/-- Method `File::dataReaderDeleted()`. -/
def File.dataReaderDeleted (f : File) : File × List Call :=
  let f1 : File := { f with numDataReader := f.numDataReader - 1 }
  if f1.numDataReader = 0 then
    ({ f1 with fileInReadMode := none }, [Call.poolRelease f1.fileInReadMode false])
  else
    (f1, [])

/-- Method `File::write(buffer, nbBytes, offset)`. `seekOk` is the answer of `QFile::seek`,
`written` the value returned by `QFile::write`. -/
def File.write (nbBytes : Int) (offset : Int) (seekOk : Bool) (written : Int) (f : File) :
    Out Int :=
  match f.fileInWriteMode with
  | none => { file := f, calls := [], result := Result.raised Exn.IOErrorException }
  | some h =>
    if offset ≥ f.size then
      { file := f, calls := [], result := Result.raised Exn.IOErrorException }
    else if seekOk = false then
      { file := f, calls := [Call.seek h offset], result := Result.raised Exn.IOErrorException }
    else
      let maxSize := f.size - offset
      let n := written
      { file := f
        calls := [Call.seek h offset, Call.write h (if nbBytes > maxSize then maxSize else nbBytes)]
        result := if n = -1 then Result.raised Exn.IOErrorException else Result.ok n }

/-- Method `File::read(buffer, offset, maxBytesToRead)`. `seekOk` is the answer of `QFile::seek`,
`bytesRead` the value returned by `QFile::read`. -/
def File.read (offset : Int) (maxBytesToRead : Int) (seekOk : Bool) (bytesRead : Int) (f : File) :
    Out Int :=
  match f.fileInReadMode with
  | none => { file := f, calls := [], result := Result.ok 0 }
  | some h =>
    if offset ≥ f.size then
      { file := f, calls := [], result := Result.ok 0 }
    else if seekOk = false then
      { file := f, calls := [Call.seek h offset], result := Result.raised Exn.IOErrorException }
    else
      { file := f
        calls := [Call.seek h offset, Call.read h maxBytesToRead]
        result := if bytesRead = -1 then Result.raised Exn.IOErrorException else Result.ok bytesRead }

/-- Method `File::setAsComplete()`. `renameOk` is the answer of `Common::Global::rename`,
`fsDate` the last modification date the file system has for the renamed file. -/
def File.setAsComplete (unfinishedSuffix : QString) (renameOk : Bool) (fsDate : Int) (f : File) :
    File × List Call :=
  if isFileUnfinished unfinishedSuffix f.name then
    let released : File × List Call :=
      if f.numDataReader > 0 ∨ f.numDataWriter > 0 then
        ({ f with fileInReadMode := none, fileInWriteMode := none },
          [Call.poolForceReleaseAll f.getFullPath])
      else
        (f, [])
    let f1 := released.1
    let oldPath := f1.getFullPath
    let newPath := removeUnfinishedSuffix unfinishedSuffix oldPath
    if renameOk = false then
      (f1, released.2 ++ [Call.fsRename oldPath newPath, Call.logError])
    else
      let f2 : File := { f1 with complete := true }
      let f3 : File := { f2 with dateLastModified := fsDate }
      let f4 : File := { f3 with name := removeUnfinishedSuffix unfinishedSuffix f3.name }
      (f4, released.2 ++ [Call.fsRename oldPath newPath, Call.onEntryAdded f4.name])
  else
    (f, [])

/-- The loop of `File::chunkComplete` from the position `i` on: the calls made and the number of
complete chunks counted. `chunk` is the position, in the chunks of the file, of the chunk the
argument points to (`none` when it points to no chunk of the file). -/
def chunkCompleteLoop (CHUNK_SIZE : Int) (fileSize : Int) (chunk : Option Nat) :
    Nat → List Chunk → List Call × Int
  | _, [] => ([], 0)
  | i, c :: rest =>
    let r := chunkCompleteLoop CHUNK_SIZE fileSize chunk (i + 1) rest
    ((if chunk = some i then [Call.onChunkHashKnown c] else []) ++ r.1,
      (if c.isComplete CHUNK_SIZE fileSize then 1 else 0) + r.2)

/-- Method `File::chunkComplete(chunk)`; the answers are those of `setAsComplete`. -/
def File.chunkComplete (unfinishedSuffix : QString) (CHUNK_SIZE : Int) (chunk : Option Nat)
    (renameOk : Bool) (fsDate : Int) (f : File) : File × List Call :=
  let counted := chunkCompleteLoop CHUNK_SIZE f.size chunk 0 f.chunks
  let nbChunkComplete := counted.2
  if nbChunkComplete = f.getNbChunks CHUNK_SIZE then
    let done := f.setAsComplete unfinishedSuffix renameOk fsDate
    (done.1, counted.1 ++ done.2)
  else
    (f, counted.1)

/-- Method `File::removeUnfinishedFiles()`. `removeOk` is the answer of `QFile::remove`. -/
def File.removeUnfinishedFiles (removeOk : Bool) (f : File) : File × List Call :=
  if f.complete = false then
    ({ f with fileInReadMode := none, fileInWriteMode := none },
      [Call.poolForceReleaseAll f.getFullPath, Call.fsRemove f.getFullPath] ++
        (if removeOk = false then [Call.logWarning] else []))
  else
    (f, [])

/-! ## The hash cache, the deletion, the hasher -/

/-- Conversion of an integer to a `qint64` (two's complement): the `static_cast<qint64>` of a
`uint64` field of a record. -/
def toInt64 (x : Int) : Int :=
  (x + 9223372036854775808) % 18446744073709551616 - 9223372036854775808

/-- Conversion of a `qint64` to the `uint64` a record field holds. -/
def toUInt64 (x : Int) : Nat :=
  (x % 18446744073709551616).toNat

/-- Modelled from the spec: the record `Protos::FileCache::Hashes_Chunk` of a chunk in the hash
cache (its declaration is not among the sources): the known-byte count and the optional hash,
`Hash.null` standing for a record without a hash. -/
structure HashesChunk where
  known_bytes : Int
  hash : Hash
  deriving DecidableEq, Repr

/-- Modelled from the spec: the record `Protos::FileCache::Hashes_File` of a file in the hash
cache (its declaration is not among the sources): the file name, the size and the last
modification date, both `uint64`, and the records of the chunks, in order. -/
structure HashesFile where
  filename : QString
  size : Nat
  date_last_modified : Nat
  chunk : List HashesChunk
  deriving DecidableEq, Repr

/-- A new, empty record. -/
def HashesFile.new : HashesFile :=
  { filename := [], size := 0, date_last_modified := 0, chunk := [] }

/-- Modelled from the spec: `Chunk::restoreFromFileCache(chunk)`: the chunk takes the known-byte
count of the record, and its hash when the record has one. -/
def Chunk.restoreFromFileCache (record : HashesChunk) (c : Chunk) : Chunk :=
  { c with
    knownBytes := record.known_bytes
    hash := if record.hash.isNull then c.hash else record.hash }

/-- Modelled from the spec: `Chunk::populateHashesChunk(chunk)`: the record takes the known-byte
count of the chunk and its hash. -/
def Chunk.populateHashesChunk (c : Chunk) : HashesChunk :=
  { known_bytes := c.knownBytes, hash := c.hash }

/-- The loop of `File::restoreFromFileCache` over the chunks and their records: the chunks after
the loop and the calls made. -/
def restoreChunks : List Chunk → List HashesChunk → List Chunk × List Call
  | chunk :: chunks, record :: records =>
    let restored := chunk.restoreFromFileCache record
    let r := restoreChunks chunks records
    (restored :: r.1,
      (if restored.hasHash = true ∧ restored.knownBytes > 0 then
        [Call.onChunkHashKnown restored] else []) ++ r.2)
  | chunks, _ => (chunks, [])

/-- Method `File::restoreFromFileCache(file)`. The strings of the record are read as they were
written (`ProtoHelper::getStr` and `setStr` are not modelled). -/
def File.restoreFromFileCache (unfinishedSuffix : QString) (file : HashesFile) (f : File) :
    Out Bool :=
  if toInt64 file.size = f.size ∧ file.filename = f.name ∧
      (isFileUnfinished unfinishedSuffix f.name = true ∨
        toInt64 file.date_last_modified = f.dateLastModified) ∧
      f.chunks.length = file.chunk.length then
    let r := restoreChunks f.chunks file.chunk
    { file := { f with chunks := r.1 }, calls := r.2, result := Result.ok true }
  else
    { file := f, calls := [], result := Result.ok false }

/-- Method `File::populateHashesFile(fileToFill)`: the record after the call. -/
def File.populateHashesFile (fileToFill : HashesFile) (f : File) : HashesFile :=
  { filename := f.name
    size := toUInt64 f.size
    date_last_modified := toUInt64 f.dateLastModified
    chunk := fileToFill.chunk ++ f.chunks.map Chunk.populateHashesChunk }

/-- Method `File::del(invokeDelete)`: the members and the calls made up to the call of
`Entry::del(invokeDelete)`, which ends the life of the entity (modelled from the spec: its body
is not among the sources). -/
def File.del (invokeDelete : Bool) (f : File) : File × List Call :=
  let cleared := f.deleteAllChunks
  (cleared.1,
    [Call.dirFileDeleted f.name] ++ f.chunks.map Call.chunkFileDeleted ++ cleared.2 ++
      [Call.poolRelease f.fileInWriteMode true, Call.poolRelease f.fileInReadMode true,
        Call.entryDel invokeDelete])

/-- Method `File::deleteIfIncomplete()`: the file after the call, `none` when the entity was
deleted, and the calls made. `removeOk` is the answer of `QFile::remove`. Modelled from the
spec: the default argument of `del`, declared in a header that is not among the sources, is
`true` (the entity is destroyed). -/
def File.deleteIfIncomplete (removeOk : Bool) (f : File) : Option File × List Call :=
  if f.complete = false then
    let removed := f.removeUnfinishedFiles removeOk
    let deleted := removed.1.del true
    (none, removed.2 ++ deleted.2)
  else
    (some f, [])

/-- Method `FileForHasher::setSize(size)`. -/
def FileForHasher.setSize (size : Int) (f : File) : File × List Call :=
  if f.size ≠ size then
    (f.setSize size, [Call.dirFileSizeChanged f.size size])
  else
    (f, [])

/-! ## Sequences of calls -/

/-- A call of a method that changes the name or the `complete` flag of a file, with the answers
of the collaborators. -/
inductive NameOp where
  | setToUnfinished (size : Int) (hashes : List Hash) (now : Int) (openOk resizeOk : Bool)
      (fsDate : Int) : NameOp
  | chunkComplete (chunk : Option Nat) (renameOk : Bool) (fsDate : Int) : NameOp
  | setAsComplete (renameOk : Bool) (fsDate : Int) : NameOp
  | rename (newName : QString) : NameOp

/-- The file after one call. -/
def NameOp.run (unfinishedSuffix : QString) (CHUNK_SIZE : Int) (f : File) : NameOp → File
  | NameOp.setToUnfinished size hashes now openOk resizeOk fsDate =>
    (f.setToUnfinished unfinishedSuffix CHUNK_SIZE size hashes now openOk resizeOk fsDate).file
  | NameOp.chunkComplete chunk renameOk fsDate =>
    (f.chunkComplete unfinishedSuffix CHUNK_SIZE chunk renameOk fsDate).1
  | NameOp.setAsComplete renameOk fsDate => (f.setAsComplete unfinishedSuffix renameOk fsDate).1
  | NameOp.rename newName => (f.rename newName).1

/-- The file after a sequence of calls, made one after the other. -/
def runNameOps (unfinishedSuffix : QString) (CHUNK_SIZE : Int) (f : File) (ops : List NameOp) :
    File :=
  ops.foldl (NameOp.run unfinishedSuffix CHUNK_SIZE) f

/-- A name carries the unfinished suffix at most once: stripped of it, it does not end with it. -/
def suffixAtMostOnce (unfinishedSuffix : QString) (name : QString) : Bool :=
  !isFileUnfinished unfinishedSuffix (removeUnfinishedSuffix unfinishedSuffix name)

/-- The calls that keep names and flag together: `setToUnfinished` is made on a complete file,
and `rename` gives a name that carries the suffix at most once, and carries it exactly when the
file is not complete. The other calls are free. -/
def NameOp.guarded (unfinishedSuffix : QString) (f : File) : NameOp → Bool
  | NameOp.setToUnfinished _ _ _ _ _ _ => f.complete
  | NameOp.chunkComplete _ _ _ => true
  | NameOp.setAsComplete _ _ => true
  | NameOp.rename newName =>
    suffixAtMostOnce unfinishedSuffix newName &&
      (isFileUnfinished unfinishedSuffix newName == !f.complete)

/-- Every call of the sequence is guarded in the state it is made in. -/
def allGuarded (unfinishedSuffix : QString) (CHUNK_SIZE : Int) : File → List NameOp → Bool
  | _, [] => true
  | f, op :: ops =>
    op.guarded unfinishedSuffix f &&
      allGuarded unfinishedSuffix CHUNK_SIZE (op.run unfinishedSuffix CHUNK_SIZE f) ops

/-- The file after `n` calls of `newDataWriterCreated`, the calls made, and whether every call
returned without an exception. The answers of the pool for each call are in `answers`. -/
def acquireWriters : List (Option Nat × Bool × Bool) → File → File × List Call × Bool
  | [], f => (f, [], true)
  | a :: rest, f =>
    let o := f.newDataWriterCreated a.1 a.2.1 a.2.2
    let r := acquireWriters rest o.file
    (r.1, o.calls ++ r.2.1, (o.result == Result.ok ()) && r.2.2)

/-- The file after `n` calls of `dataWriterDeleted`, and the calls made. -/
def releaseWriters : Nat → File → File × List Call
  | 0, f => (f, [])
  | n + 1, f =>
    let o := f.dataWriterDeleted
    let r := releaseWriters n o.1
    (r.1, o.2 ++ r.2)

/-- The file after `n` calls of `newDataReaderCreated`, the calls made, and whether every call
returned without an exception. -/
def acquireReaders : List (Option Nat) → File → File × List Call × Bool
  | [], f => (f, [], true)
  | a :: rest, f =>
    let o := f.newDataReaderCreated a
    let r := acquireReaders rest o.file
    (r.1, o.calls ++ r.2.1, (o.result == Result.ok ()) && r.2.2)

/-- The file after `n` calls of `dataReaderDeleted`, and the calls made. -/
def releaseReaders : Nat → File → File × List Call
  | 0, f => (f, [])
  | n + 1, f =>
    let o := f.dataReaderDeleted
    let r := releaseReaders n o.1
    (r.1, o.2 ++ r.2)

/-- Whether a call is a call of `FilePool::open`. -/
def Call.isPoolOpen : Call → Bool
  | Call.poolOpen _ _ => true
  | _ => false

/-- Whether a call is a call of `FilePool::release`. -/
def Call.isPoolRelease : Call → Bool
  | Call.poolRelease _ _ => true
  | _ => false

/-- Whether a call is a call of `Cache::onChunkRemoved`. -/
def Call.isOnChunkRemoved : Call → Bool
  | Call.onChunkRemoved _ => true
  | _ => false

/-- A call of a method that reads or changes the handle slots or the counters of a file, with
the answers of the collaborators. -/
inductive HandleOp where
  | newDataWriterCreated (opened : Option Nat) (fileCreated resizeOk : Bool) : HandleOp
  | dataWriterDeleted : HandleOp
  | newDataReaderCreated (opened : Option Nat) : HandleOp
  | dataReaderDeleted : HandleOp
  | write (nbBytes offset : Int) (seekOk : Bool) (written : Int) : HandleOp
  | read (offset maxBytesToRead : Int) (seekOk : Bool) (bytesRead : Int) : HandleOp
  | chunkComplete (chunk : Option Nat) (renameOk : Bool) (fsDate : Int) : HandleOp
  | setAsComplete (renameOk : Bool) (fsDate : Int) : HandleOp
  | removeUnfinishedFiles (removeOk : Bool) : HandleOp

/-- The file after one call, whether the call returned or raised an exception. -/
def HandleOp.run (unfinishedSuffix : QString) (CHUNK_SIZE : Int) (f : File) : HandleOp → File
  | HandleOp.newDataWriterCreated opened fileCreated resizeOk =>
    (f.newDataWriterCreated opened fileCreated resizeOk).file
  | HandleOp.dataWriterDeleted => f.dataWriterDeleted.1
  | HandleOp.newDataReaderCreated opened => (f.newDataReaderCreated opened).file
  | HandleOp.dataReaderDeleted => f.dataReaderDeleted.1
  | HandleOp.write nbBytes offset seekOk written => (f.write nbBytes offset seekOk written).file
  | HandleOp.read offset maxBytesToRead seekOk bytesRead =>
    (f.read offset maxBytesToRead seekOk bytesRead).file
  | HandleOp.chunkComplete chunk renameOk fsDate =>
    (f.chunkComplete unfinishedSuffix CHUNK_SIZE chunk renameOk fsDate).1
  | HandleOp.setAsComplete renameOk fsDate => (f.setAsComplete unfinishedSuffix renameOk fsDate).1
  | HandleOp.removeUnfinishedFiles removeOk => (f.removeUnfinishedFiles removeOk).1

/-- The file after a sequence of calls, made one after the other. -/
def runHandleOps (unfinishedSuffix : QString) (CHUNK_SIZE : Int) (f : File)
    (ops : List HandleOp) : File :=
  ops.foldl (HandleOp.run unfinishedSuffix CHUNK_SIZE) f

/-- Whether a call is a call of `Cache::onEntryAdded`. -/
def Call.isOnEntryAdded : Call → Bool
  | Call.onEntryAdded _ => true
  | _ => false

/-- Whether a call is a call of `Cache::onEntryRemoved`. -/
def Call.isOnEntryRemoved : Call → Bool
  | Call.onEntryRemoved _ => true
  | _ => false

/-- Whether a call is a call of `Cache::onChunkHashKnown`. -/
def Call.isOnChunkHashKnown : Call → Bool
  | Call.onChunkHashKnown _ => true
  | _ => false

/-- Whether a call is a call of `Common::Global::rename`. -/
def Call.isFsRename : Call → Bool
  | Call.fsRename _ _ => true
  | _ => false

/-- Whether a call is a call of `Directory::fileSizeChanged`. -/
def Call.isDirFileSizeChanged : Call → Bool
  | Call.dirFileSizeChanged _ _ => true
  | _ => false

/-! ## Sample values -/

/-- The default unfinished suffix. -/
def Sample.suffix : QString := ".unfinished".toList

/-- A chunk size of 32 MiB. -/
def Sample.chunkSize : Int := 33554432

/-- The full path of a shared directory. -/
def Sample.share : QString := "/share/".toList

/-- The file built for the download of a file `a` of one byte: one chunk, no byte known. -/
def Sample.download : File :=
  { dirFullPath := Sample.share
    name := "a.unfinished".toList
    size := 1
    dateLastModified := 5
    complete := false
    numDataWriter := 0
    numDataReader := 0
    fileInWriteMode := none
    fileInReadMode := none
    chunks := [{ num := 0, knownBytes := 0, hash := Hash.null }] }

/-- The calls made by the constructor when it builds `Sample.download`. -/
def Sample.downloadCalls : List Call :=
  [Call.fsOpenWriteOnly "/share/a.unfinished".toList,
    Call.fsResize "/share/a.unfinished".toList 1,
    Call.dirAdd "a.unfinished".toList]

/-- The download `Sample.download` once its only byte is known. -/
def Sample.downloaded : File :=
  { Sample.download with chunks := [{ num := 0, knownBytes := 1, hash := Hash.bytes [7] }] }

/-- The download `Sample.download` with a write handle and a read handle open. -/
def Sample.opened : File :=
  { Sample.download with
    numDataWriter := 1, numDataReader := 1, fileInWriteMode := some 3, fileInReadMode := some 4 }

/-- Three hashes, the second one null. -/
def Sample.hashes : List Hash := [Hash.bytes [1], Hash.null, Hash.bytes [3]]

/-- The shared file `b` of 32 MiB and one byte (two chunks), built with `Sample.hashes`. -/
def Sample.shared : File :=
  { dirFullPath := Sample.share
    name := "b".toList
    size := 33554433
    dateLastModified := 0
    complete := true
    numDataWriter := 0
    numDataReader := 0
    fileInWriteMode := none
    fileInReadMode := none
    chunks := [{ num := 0, knownBytes := 33554432, hash := Hash.bytes [1] },
      { num := 1, knownBytes := 1, hash := Hash.null }] }

/-- The calls made by the constructor when it builds `Sample.shared`. -/
def Sample.sharedCalls : List Call :=
  [Call.onChunkHashKnown { num := 0, knownBytes := 33554432, hash := Hash.bytes [1] },
    Call.dirAdd "b".toList]

/-- A sequence of calls on `Sample.download`: a completion that finds the chunk incomplete, a
completion whose rename fails, one that succeeds, a new download of the file, a rename. -/
def Sample.nameOps : List NameOp :=
  [NameOp.chunkComplete (some 0) true 6, NameOp.setAsComplete false 7, NameOp.setAsComplete true 8,
    NameOp.setToUnfinished 2 [] 9 true true 10, NameOp.rename "c.unfinished".toList]

/-- The record of `Sample.shared` in the hash cache. -/
def Sample.record : HashesFile :=
  { filename := "b".toList
    size := 33554433
    date_last_modified := 0
    chunk := [{ known_bytes := 33554432, hash := Hash.bytes [1] },
      { known_bytes := 1, hash := Hash.null }] }

/-- A sequence of calls on `Sample.download`: an open that fails, a second writer, a completion
whose rename fails, a removal, three releases (one more than the writers), a writer that
opens nothing, a reader and two releases for it, a writer that opens the file, a write and a
read. -/
def Sample.handleOps : List HandleOp :=
  [HandleOp.newDataWriterCreated none false false, HandleOp.newDataWriterCreated (some 2) false false,
    HandleOp.setAsComplete false 7, HandleOp.removeUnfinishedFiles true,
    HandleOp.dataWriterDeleted, HandleOp.dataWriterDeleted, HandleOp.dataWriterDeleted,
    HandleOp.newDataWriterCreated (some 9) false false, HandleOp.newDataReaderCreated (some 4),
    HandleOp.dataReaderDeleted, HandleOp.dataReaderDeleted,
    HandleOp.newDataWriterCreated (some 3) true true,
    HandleOp.write 10 0 true 1, HandleOp.read 0 10 true 1]

/-! ## Theorems -/

theorem isFileUnfinished_append (sfx name : QString) :
    isFileUnfinished sfx (name ++ sfx) = true := by
  unfold isFileUnfinished
  exact List.isSuffixOf_iff_suffix.mpr (List.suffix_append name sfx)

theorem removeUnfinishedSuffix_append (sfx name : QString) :
    removeUnfinishedSuffix sfx (name ++ sfx) = name := by
  unfold removeUnfinishedSuffix
  rw [isFileUnfinished_append]
  simp

theorem removeUnfinishedSuffix_of_not (sfx name : QString)
    (h : isFileUnfinished sfx name = false) : removeUnfinishedSuffix sfx name = name := by
  unfold removeUnfinishedSuffix
  simp [h]

theorem setHashesBody_fst (CS : Int) (hs : List Hash) (st : File × List Call) (i : Nat) :
    (File.setHashesBody CS hs st i).1 =
      { st.1 with chunks := st.1.chunks ++ [st.1.seedChunk CS hs i] } := by
  unfold File.setHashesBody File.seedChunk
  by_cases h : i < hs.length ∧ (hs.getD i Hash.null).isNull = false
  · simp only [h, and_self, if_true]
    split <;> rfl
  · simp only [h, if_false]

theorem setHashes_fold_fst (CS : Int) (hs : List Hash) (f : File) (n : Nat) :
    ((List.range n).foldl (File.setHashesBody CS hs) (f, [])).1 =
      { f with chunks := f.chunks ++ (List.range n).map (f.seedChunk CS hs) } := by
  induction n with
  | zero => simp
  | succ n ih =>
    rw [List.range_succ, List.foldl_append, List.foldl_cons, List.foldl_nil, setHashesBody_fst, ih]
    simp [File.seedChunk, File.chunkKnownBytes, File.isComplete, File.getNbChunks]

theorem setHashes_fst (CS : Int) (hs : List Hash) (f : File) :
    (f.setHashes CS hs).1 =
      { f with chunks := f.chunks ++
          (List.range (f.getNbChunks CS).toNat).map (f.seedChunk CS hs) } :=
  setHashes_fold_fst CS hs f _

theorem toInt_of_lt (x : Int) (h0 : 0 ≤ x) (h1 : x < 2147483648) : toInt x = x := by
  unfold toInt
  omega

theorem ceil_div_eq (CS size : Int) (hCS : 0 < CS) :
    Int.ceil ((size : ℚ) / (CS : ℚ)) = size / CS + (if size % CS = 0 then 0 else 1) := by
  have hq : (0 : ℚ) < (CS : ℚ) := by exact_mod_cast hCS
  have hdecomp : (size : ℚ) = (CS : ℚ) * ((size / CS : Int) : ℚ) + ((size % CS : Int) : ℚ) := by
    exact_mod_cast (Int.ediv_add_emod size CS).symm
  have hr0 : 0 ≤ size % CS := Int.emod_nonneg _ (ne_of_gt hCS)
  have hr1 : size % CS < CS := Int.emod_lt_of_pos _ hCS
  have hr0q : (0 : ℚ) ≤ ((size % CS : Int) : ℚ) := by exact_mod_cast hr0
  have hr1q : ((size % CS : Int) : ℚ) < (CS : ℚ) := by exact_mod_cast hr1
  rw [Int.ceil_eq_iff]
  by_cases hz : size % CS = 0
  · simp only [hz, if_true, add_zero]
    rw [hz] at hdecomp
    constructor
    · rw [lt_div_iff₀ hq]
      push_cast at hdecomp ⊢
      nlinarith
    · rw [div_le_iff₀ hq]
      push_cast at hdecomp ⊢
      nlinarith
  · simp only [hz, if_false]
    have hpos : (0 : ℚ) < ((size % CS : Int) : ℚ) := by
      have : 0 < size % CS := lt_of_le_of_ne hr0 (Ne.symm hz)
      exact_mod_cast this
    constructor
    · rw [lt_div_iff₀ hq]
      push_cast at hdecomp hpos ⊢
      nlinarith
    · rw [div_le_iff₀ hq]
      push_cast at hdecomp hr1q ⊢
      nlinarith

theorem getNbChunks_eq_toInt_ceil (CS size : Int) (hCS : 0 < CS) (hsize : 0 ≤ size) :
    getNbChunks CS size = toInt (Int.ceil ((size : ℚ) / (CS : ℚ))) := by
  unfold getNbChunks
  rw [Int.tdiv_eq_ediv hsize (le_of_lt hCS), Int.tmod_eq_emod hsize (le_of_lt hCS), ceil_div_eq CS size hCS]

theorem ceil_div_nonneg (CS size : Int) (hCS : 0 < CS) (hsize : 0 ≤ size) :
    0 ≤ Int.ceil ((size : ℚ) / (CS : ℚ)) := by
  rw [ceil_div_eq CS size hCS]
  have := Int.ediv_nonneg hsize (le_of_lt hCS)
  split <;> omega

theorem getNbChunks_eq_ceil (CS size : Int) (hCS : 0 < CS) (hsize : 0 ≤ size)
    (hrange : Int.ceil ((size : ℚ) / (CS : ℚ)) < 2147483648) :
    getNbChunks CS size = Int.ceil ((size : ℚ) / (CS : ℚ)) := by
  rw [getNbChunks_eq_toInt_ceil CS size hCS hsize]
  exact toInt_of_lt _ (ceil_div_nonneg CS size hCS hsize) hrange


theorem createPhysicalFile_file (sfx : QString) (o r : Bool) (d : Int) (f : File) :
    ∃ d2, (f.createPhysicalFile sfx o r d).file = { f with dateLastModified := d2 } := by
  unfold File.createPhysicalFile
  split_ifs
  · exact ⟨f.dateLastModified, rfl⟩
  · exact ⟨f.dateLastModified, rfl⟩
  · exact ⟨f.dateLastModified, rfl⟩
  · exact ⟨d, rfl⟩

theorem seedChunk_congr (CS : Int) (hs : List Hash) (f g : File) (i : Nat)
    (h1 : g.size = f.size) (h2 : g.complete = f.complete) :
    g.seedChunk CS hs i = f.seedChunk CS hs i := by
  simp [File.seedChunk, File.chunkKnownBytes, File.isComplete, File.getNbChunks, h1, h2]

theorem ctor_ok_file (sfx : QString) (CS : Int) (dir name : QString) (size date : Int)
    (hashes : List Hash) (cp o r : Bool) (d : Int) (f : File) (calls : List Call)
    (h : File.ctor sfx CS dir name size date hashes cp o r d = Result.ok (f, calls)) :
    ∃ d2, f = { File.init sfx dir name size date cp with
      dateLastModified := d2
      chunks := (List.range (getNbChunks CS size).toNat).map
        ((File.init sfx dir name size date cp).seedChunk CS hashes) } := by
  unfold File.ctor at h
  simp only at h
  split at h
  · exact absurd h (by simp)
  · rename_i hres
    obtain ⟨d2, hd2⟩ : ∃ d2, (if cp = true then
        (File.init sfx dir name size date cp).createPhysicalFile sfx o r d
        else { file := File.init sfx dir name size date cp, calls := [],
               result := Result.ok () : Out Unit }).file =
        { File.init sfx dir name size date cp with dateLastModified := d2 } := by
      by_cases hcp : cp = true
      · simp only [hcp, if_true]
        exact createPhysicalFile_file sfx o r d _
      · simp only [hcp]
        exact ⟨date, rfl⟩
    refine ⟨d2, ?_⟩
    injection h with h
    injection h with h1 h2
    rw [← h1, setHashes_fst, hd2]
    simp [File.getNbChunks, File.init]
    intro a _
    apply seedChunk_congr <;> rfl


theorem setAsComplete_name_complete (sfx : QString) (ok : Bool) (d : Int) (f : File) :
    ((f.setAsComplete sfx ok d).1.name = f.name ∧ (f.setAsComplete sfx ok d).1.complete = f.complete)
    ∨ (isFileUnfinished sfx f.name = true ∧ ok = true ∧
        (f.setAsComplete sfx ok d).1.name = removeUnfinishedSuffix sfx f.name ∧
        (f.setAsComplete sfx ok d).1.complete = true) := by
  unfold File.setAsComplete
  by_cases hu : isFileUnfinished sfx f.name = true
  · by_cases hok : ok = true
    · right
      refine ⟨hu, hok, ?_, ?_⟩ <;> simp only [hu, hok, if_true] <;> split_ifs <;> simp_all
    · left
      simp only [hu, if_true]
      split_ifs <;> simp_all
  · left
    simp [hu]

theorem chunkComplete_fst (sfx : QString) (CS : Int) (chunk : Option Nat) (ok : Bool) (d : Int)
    (f : File) :
    (f.chunkComplete sfx CS chunk ok d).1 = f ∨
      (f.chunkComplete sfx CS chunk ok d).1 = (f.setAsComplete sfx ok d).1 := by
  unfold File.chunkComplete
  simp only
  split_ifs
  · right; rfl
  · left; rfl

theorem setToUnfinished_file (sfx : QString) (CS : Int) (size : Int) (hashes : List Hash)
    (now : Int) (o r : Bool) (d : Int) (f : File) :
    ∃ d2, (f.setToUnfinished sfx CS size hashes now o r d).file =
      { f with
        complete := false
        name := f.name ++ sfx
        size := size
        dateLastModified := d2
        chunks := (List.range (getNbChunks CS size).toNat).map
          (File.seedChunk CS hashes { f with complete := false, size := size }) } := by
  unfold File.setToUnfinished
  simp only
  generalize hg : (File.setHashes CS hashes _).1 = g
  obtain ⟨d2, hd2⟩ := createPhysicalFile_file sfx o r d g
  refine ⟨d2, ?_⟩
  rw [hd2, ← hg, setHashes_fst]
  simp [File.deleteAllChunks, File.setSize, File.getNbChunks]
  intro a _
  apply seedChunk_congr <;> rfl

theorem setAsComplete_keeps (sfx : QString) (ok : Bool) (d : Int) (f : File)
    (h1 : f.complete = !isFileUnfinished sfx f.name) (h2 : suffixAtMostOnce sfx f.name = true) :
    (f.setAsComplete sfx ok d).1.complete = (!isFileUnfinished sfx (f.setAsComplete sfx ok d).1.name)
      ∧ suffixAtMostOnce sfx (f.setAsComplete sfx ok d).1.name = true := by
  rcases setAsComplete_name_complete sfx ok d f with ⟨hn, hc⟩ | ⟨_, _, hn, hc⟩
  · rw [hn, hc]; exact ⟨h1, h2⟩
  · have h3 : isFileUnfinished sfx (removeUnfinishedSuffix sfx f.name) = false := by
      simpa [suffixAtMostOnce] using h2
    rw [hn, hc]
    refine ⟨by simp [h3], ?_⟩
    simp [suffixAtMostOnce, removeUnfinishedSuffix_of_not sfx _ h3, h3]

theorem nameOp_keeps (sfx : QString) (CS : Int) (f : File) (op : NameOp)
    (h1 : f.complete = !isFileUnfinished sfx f.name) (h2 : suffixAtMostOnce sfx f.name = true)
    (hg : op.guarded sfx f = true) :
    (op.run sfx CS f).complete = (!isFileUnfinished sfx (op.run sfx CS f).name)
      ∧ suffixAtMostOnce sfx (op.run sfx CS f).name = true := by
  cases op with
  | setToUnfinished size hashes now o r d =>
    obtain ⟨d2, hd2⟩ := setToUnfinished_file sfx CS size hashes now o r d f
    have hc : f.complete = true := hg
    have hu : isFileUnfinished sfx f.name = false := by
      rw [hc] at h1
      simpa using h1.symm
    simp only [NameOp.run, hd2]
    simp [suffixAtMostOnce, isFileUnfinished_append, removeUnfinishedSuffix_append, hu]
  | chunkComplete chunk ok d =>
    simp only [NameOp.run]
    rcases chunkComplete_fst sfx CS chunk ok d f with h | h
    · rw [h]; exact ⟨h1, h2⟩
    · rw [h]; exact setAsComplete_keeps sfx ok d f h1 h2
  | setAsComplete ok d => exact setAsComplete_keeps sfx ok d f h1 h2
  | rename newName =>
    simp only [NameOp.guarded, Bool.and_eq_true, beq_iff_eq] at hg
    simp only [NameOp.run, File.rename, File.entryRename]
    refine ⟨?_, hg.1⟩
    rw [hg.2]
    simp

theorem runNameOps_keeps (sfx : QString) (CS : Int) (ops : List NameOp) (f : File)
    (h1 : f.complete = !isFileUnfinished sfx f.name) (h2 : suffixAtMostOnce sfx f.name = true)
    (hg : allGuarded sfx CS f ops = true) :
    (runNameOps sfx CS f ops).complete = !isFileUnfinished sfx (runNameOps sfx CS f ops).name := by
  induction ops generalizing f with
  | nil => exact h1
  | cons op ops ih =>
    simp only [allGuarded, Bool.and_eq_true] at hg
    obtain ⟨k1, k2⟩ := nameOp_keeps sfx CS f op h1 h2 hg.1
    exact ih _ k1 k2 hg.2

theorem ctor_complete (sfx : QString) (CS : Int) (dir name : QString) (size date : Int)
    (hashes : List Hash) (cp o r : Bool) (d : Int) (f : File) (calls : List Call)
    (h : File.ctor sfx CS dir name size date hashes cp o r d = Result.ok (f, calls)) :
    f.complete = !isFileUnfinished sfx f.name := by
  obtain ⟨d2, hd2⟩ := ctor_ok_file sfx CS dir name size date hashes cp o r d f calls h
  rw [hd2]
  rfl

/-- C1, as stated, fails. The download of a file named `a.unfinished` is created as
`a.unfinished.unfinished`; once completed it is named `a.unfinished`: `complete` is true and the
name ends with the suffix. A complete file `a` renamed to `b.unfinished` is in the same
situation, and an unfinished file renamed to `b` has `complete` false and a name without the
suffix. -/
theorem c1_counterexample :
    ((File.ctor ".unfinished".toList 33554432 "/share/".toList "a.unfinished".toList 1 0 []
        true true true 0).value?.map (fun p =>
          let g := runNameOps ".unfinished".toList 33554432 p.1 [NameOp.setAsComplete true 0]
          (g.name, g.complete, isFileUnfinished ".unfinished".toList g.name)))
      = some ("a.unfinished".toList, true, true)
    ∧ ((File.ctor ".unfinished".toList 33554432 "/share/".toList "a".toList 1 0 []
        false true true 0).value?.map (fun p =>
          let g := runNameOps ".unfinished".toList 33554432 p.1 [NameOp.rename "b.unfinished".toList]
          (g.name, g.complete, isFileUnfinished ".unfinished".toList g.name)))
      = some ("b.unfinished".toList, true, true)
    ∧ ((File.ctor ".unfinished".toList 33554432 "/share/".toList "a".toList 1 0 []
        true true true 0).value?.map (fun p =>
          let g := runNameOps ".unfinished".toList 33554432 p.1 [NameOp.rename "b".toList]
          (g.name, g.complete, isFileUnfinished ".unfinished".toList g.name)))
      = some ("b".toList, false, false) := by
  decide

/-- C1, amended. For a file built by the constructor under a name that carries the unfinished
suffix at most once, and then changed by any sequence of `setToUnfinished` (made on a complete
file), `chunkComplete` / `setAsComplete` (with any rename outcome) and `rename(newName)` (where
`newName` carries the suffix at most once, and carries it exactly when the file is not
complete), `complete` is true if and only if the name does not end with the unfinished suffix. -/
theorem c1_complete_iff_no_suffix (sfx : QString) (CS : Int) (dir name : QString)
    (size date : Int) (hashes : List Hash) (cp o r : Bool) (d : Int) (f : File)
    (calls : List Call) (ops : List NameOp)
    (hbuilt : File.ctor sfx CS dir name size date hashes cp o r d = Result.ok (f, calls))
    (hname : suffixAtMostOnce sfx f.name = true)
    (hops : allGuarded sfx CS f ops = true) :
    (runNameOps sfx CS f ops).complete = true ↔
      isFileUnfinished sfx (runNameOps sfx CS f ops).name = false := by
  have h := runNameOps_keeps sfx CS ops f
    (ctor_complete sfx CS dir name size date hashes cp o r d f calls hbuilt) hname hops
  rw [h]
  simp

/-- C1, amended, on the download `a`: built, completed at the second attempt, downloaded again
and renamed `c.unfinished`. -/
theorem c1_complete_iff_no_suffix_witness :
    File.ctor Sample.suffix Sample.chunkSize Sample.share "a".toList 1 0 [] true true true 5
        = Result.ok (Sample.download, Sample.downloadCalls) ∧
    suffixAtMostOnce Sample.suffix Sample.download.name = true ∧
    allGuarded Sample.suffix Sample.chunkSize Sample.download Sample.nameOps = true ∧
    ((runNameOps Sample.suffix Sample.chunkSize Sample.download Sample.nameOps).complete = true ↔
      isFileUnfinished Sample.suffix
        (runNameOps Sample.suffix Sample.chunkSize Sample.download Sample.nameOps).name = false) :=
  ⟨by decide, by decide, by decide,
    c1_complete_iff_no_suffix Sample.suffix Sample.chunkSize Sample.share "a".toList 1 0 [] true
      true true 5 Sample.download Sample.downloadCalls Sample.nameOps (by decide) (by decide)
      (by decide)⟩

/-- C2, as stated, fails. With chunks of 32 MiB a file of 2^56 bytes should have
⌈size / CHUNK_SIZE⌉ = 2^31 chunks; `getNbChunks()`, an `int`, is -2^31 and the constructor
builds no chunk. -/
theorem c2_counterexample :
    ((File.ctor ".unfinished".toList 33554432 "/share/".toList "a".toList 72057594037927936 0 []
        false true true 0).value?.map (fun p =>
          ((p.1.chunks.length : Int), p.1.getNbChunks 33554432))) = some (0, -2147483648)
    ∧ Int.ceil ((72057594037927936 : ℚ) / (33554432 : ℚ)) = 2147483648 := by
  refine ⟨by decide, ?_⟩
  norm_num

theorem getNbChunks_zero (CS : Int) : getNbChunks CS 0 = 0 := by
  simp [getNbChunks, toInt]

/-- C2, amended. For a positive `CHUNK_SIZE`, every size ≥ 0 with ⌈size / CHUNK_SIZE⌉ < 2^31
(the values an `int` holds) and every list of hashes: a file built by the constructor, and a file
after `setToUnfinished(size, hashes)`, has exactly `getNbChunks()` chunks, `getNbChunks()` is
⌈size / CHUNK_SIZE⌉, and it is 0 when the size is 0. -/
theorem c2_chunk_count (sfx : QString) (CS size : Int) (hashes : List Hash)
    (hCS : 0 < CS) (hsize : 0 ≤ size)
    (hrange : Int.ceil ((size : ℚ) / (CS : ℚ)) < 2147483648) :
    (∀ (dir name : QString) (date : Int) (cp o r : Bool) (d : Int) (f : File) (calls : List Call),
      File.ctor sfx CS dir name size date hashes cp o r d = Result.ok (f, calls) →
        (f.chunks.length : Int) = f.getNbChunks CS ∧
        f.getNbChunks CS = Int.ceil ((size : ℚ) / (CS : ℚ)) ∧
        (size = 0 → f.getNbChunks CS = 0))
    ∧ (∀ (g : File) (now : Int) (o r : Bool) (d : Int),
        (((g.setToUnfinished sfx CS size hashes now o r d).file.chunks.length : Int) =
          (g.setToUnfinished sfx CS size hashes now o r d).file.getNbChunks CS) ∧
        (g.setToUnfinished sfx CS size hashes now o r d).file.getNbChunks CS =
          Int.ceil ((size : ℚ) / (CS : ℚ)) ∧
        (size = 0 → (g.setToUnfinished sfx CS size hashes now o r d).file.getNbChunks CS = 0)) := by
  have hn := getNbChunks_eq_ceil CS size hCS hsize hrange
  have h0 := ceil_div_nonneg CS size hCS hsize
  constructor
  · intro dir name date cp o r d f calls hbuilt
    obtain ⟨d2, hd2⟩ := ctor_ok_file sfx CS dir name size date hashes cp o r d f calls hbuilt
    have hs : f.size = size := by rw [hd2]; rfl
    refine ⟨?_, ?_, ?_⟩
    · rw [File.getNbChunks, hs, hd2]
      simp only [List.length_map, List.length_range]
      omega
    · rw [File.getNbChunks, hs]; exact hn
    · intro hz
      rw [File.getNbChunks, hs, hz]; exact getNbChunks_zero CS
  · intro g now o r d
    obtain ⟨d2, hd2⟩ := setToUnfinished_file sfx CS size hashes now o r d g
    rw [hd2]
    refine ⟨?_, ?_, ?_⟩
    · simp only [File.getNbChunks, List.length_map, List.length_range]
      omega
    · exact hn
    · intro hz
      simp only [File.getNbChunks, hz]; exact getNbChunks_zero CS

/-- C2, amended, on the download `a` of one byte, and on the shared file `b` downloaded again
with a size of 100 bytes. -/
theorem c2_chunk_count_witness :
    (0 : Int) < Sample.chunkSize ∧ (0 : Int) ≤ 1 ∧
    Int.ceil (((1 : Int) : ℚ) / ((Sample.chunkSize : Int) : ℚ)) < 2147483648 ∧
    File.ctor Sample.suffix Sample.chunkSize Sample.share "a".toList 1 0 [] true true true 5
        = Result.ok (Sample.download, Sample.downloadCalls) ∧
    ((Sample.download.chunks.length : Int) = Sample.download.getNbChunks Sample.chunkSize ∧
      Sample.download.getNbChunks Sample.chunkSize
        = Int.ceil (((1 : Int) : ℚ) / ((Sample.chunkSize : Int) : ℚ)) ∧
      ((1 : Int) = 0 → Sample.download.getNbChunks Sample.chunkSize = 0)) ∧
    (((Sample.shared.setToUnfinished Sample.suffix Sample.chunkSize 1 [] 9 true true
        10).file.chunks.length : Int) = 1) :=
  ⟨by decide, by decide, by rw [ceil_div_eq Sample.chunkSize 1 (by decide)]; decide, by decide,
    (c2_chunk_count Sample.suffix Sample.chunkSize 1 [] (by decide) (by decide)
      (by rw [ceil_div_eq Sample.chunkSize 1 (by decide)]; decide)).1 Sample.share "a".toList 0
      true true true 5 Sample.download Sample.downloadCalls (by decide),
    by decide⟩

theorem setHashesBody_take (CS : Int) (hs : List Hash) (n : Nat) (st : File × List Call)
    (i : Nat) (hi : i < n) :
    File.setHashesBody CS (hs.take n) st i = File.setHashesBody CS hs st i := by
  have h1 : (hs.take n).getD i Hash.null = hs.getD i Hash.null := by
    simp [List.getD_eq_getElem?_getD, List.getElem?_take, hi]
  have h2 : i < (hs.take n).length ↔ i < hs.length := by
    simp [List.length_take, hi]
  unfold File.setHashesBody
  simp only [h1, h2]

theorem setHashes_take (CS : Int) (hs : List Hash) (f : File) :
    f.setHashes CS (hs.take (f.getNbChunks CS).toNat) = f.setHashes CS hs := by
  unfold File.setHashes
  apply List.foldl_ext
  intro st i hi
  exact setHashesBody_take CS hs _ st i (List.mem_range.mp hi)

theorem ctor_take (sfx : QString) (CS : Int) (dir name : QString) (size date : Int)
    (hashes : List Hash) (cp o r : Bool) (d : Int) :
    File.ctor sfx CS dir name size date (hashes.take (getNbChunks CS size).toNat) cp o r d =
      File.ctor sfx CS dir name size date hashes cp o r d := by
  have hsz : ∀ g : Out Unit,
      g.file.size = size → g.file.setHashes CS (hashes.take (getNbChunks CS size).toNat)
        = g.file.setHashes CS hashes := by
    intro g hg
    have := setHashes_take CS hashes g.file
    rwa [File.getNbChunks, hg] at this
  unfold File.ctor
  simp only
  by_cases hcp : cp = true
  · simp only [hcp, if_true]
    obtain ⟨d2, hd2⟩ := createPhysicalFile_file sfx o r d (File.init sfx dir name size date true)
    rw [hsz _ (by rw [hd2]; rfl)]
  · simp only [hcp]
    rw [hsz _ rfl]

theorem ctor_chunks_length (sfx : QString) (CS : Int) (dir name : QString) (size date : Int)
    (hashes : List Hash) (cp o r : Bool) (d : Int) (f : File) (calls : List Call)
    (h : File.ctor sfx CS dir name size date hashes cp o r d = Result.ok (f, calls)) :
    f.chunks.length = (getNbChunks CS size).toNat := by
  obtain ⟨d2, hd2⟩ := ctor_ok_file sfx CS dir name size date hashes cp o r d f calls h
  rw [hd2]
  simp

/-- C3. For a file built by the constructor with the list `hashes`: the chunk at the position
`i` has the index `i`, the hash `hashes[i]` when `i < |hashes|` and that hash is not null, and a
null hash otherwise; a list that agrees with `hashes` below the chunk count builds the same file
with the same calls: the hashes at the positions from the chunk count on are ignored. -/
theorem c3_chunk_hashes (sfx : QString) (CS : Int) (dir name : QString) (size date : Int)
    (hashes : List Hash) (cp o r : Bool) (d : Int) (f : File) (calls : List Call)
    (hbuilt : File.ctor sfx CS dir name size date hashes cp o r d = Result.ok (f, calls)) :
    (∀ (i : Nat) (hi : i < f.chunks.length),
      (f.chunks.get ⟨i, hi⟩).num = i ∧
      (i < hashes.length ∧ (hashes.getD i Hash.null).isNull = false →
        (f.chunks.get ⟨i, hi⟩).hash = hashes.getD i Hash.null) ∧
      (¬ (i < hashes.length ∧ (hashes.getD i Hash.null).isNull = false) →
        (f.chunks.get ⟨i, hi⟩).hash = Hash.null))
    ∧ (∀ hashes2 : List Hash, hashes2.take f.chunks.length = hashes.take f.chunks.length →
        File.ctor sfx CS dir name size date hashes2 cp o r d = Result.ok (f, calls)) := by
  have hlen := ctor_chunks_length sfx CS dir name size date hashes cp o r d f calls hbuilt
  constructor
  · obtain ⟨d2, hd2⟩ := ctor_ok_file sfx CS dir name size date hashes cp o r d f calls hbuilt
    subst hd2
    intro i hi
    refine ⟨?_, ?_, ?_⟩
    · simp [File.seedChunk]
    · intro h
      simp only [List.get_eq_getElem, List.getElem_map, List.getElem_range, File.seedChunk]
      rw [if_pos h]
    · intro h
      simp only [List.get_eq_getElem, List.getElem_map, List.getElem_range, File.seedChunk]
      rw [if_neg h]
  · intro hashes2 h2
    rw [hlen] at h2
    rw [← ctor_take sfx CS dir name size date hashes2, h2, ctor_take]
    exact hbuilt

/-- C3 on the file `b` of two chunks built with three hashes, the second one null. -/
theorem c3_chunk_hashes_witness :
    File.ctor Sample.suffix Sample.chunkSize Sample.share "b".toList 33554433 0 Sample.hashes
        false true true 0 = Result.ok (Sample.shared, Sample.sharedCalls) ∧
    Sample.shared.chunks.map Chunk.hash = [Hash.bytes [1], Hash.null] ∧
    File.ctor Sample.suffix Sample.chunkSize Sample.share "b".toList 33554433 0
        [Hash.bytes [1], Hash.null, Hash.bytes [4], Hash.bytes [5]] false true true 0
      = Result.ok (Sample.shared, Sample.sharedCalls) :=
  ⟨by decide, by decide,
    (c3_chunk_hashes Sample.suffix Sample.chunkSize Sample.share "b".toList 33554433 0
      Sample.hashes false true true 0 Sample.shared Sample.sharedCalls (by decide)).2
      [Hash.bytes [1], Hash.null, Hash.bytes [4], Hash.bytes [5]] (by decide)⟩

/-- C4. For every name and every size > 0, the constructor called with
`createPhysically = true`, when the physical creation succeeds, builds a file whose name is the
given name followed by the unfinished suffix, whose flag `complete` is false and whose chunks all
have no known byte. With a size of `3 * CHUNK_SIZE + 100` (for a `CHUNK_SIZE` of 100 bytes at
least) the file has 4 chunks. -/
theorem c4_created_unfinished (sfx : QString) (CS : Int) (dir name : QString) (size date : Int)
    (hashes : List Hash) (d : Int) (hsize : 0 < size) :
    ∃ f calls,
      File.ctor sfx CS dir name size date hashes true true true d = Result.ok (f, calls) ∧
      f.name = name ++ sfx ∧ f.complete = false ∧ (∀ c ∈ f.chunks, c.knownBytes = 0) ∧
      (100 ≤ CS → size = 3 * CS + 100 → f.chunks.length = 4) := by
  have hex : ∃ f calls,
      File.ctor sfx CS dir name size date hashes true true true d = Result.ok (f, calls) := by
    simp [File.ctor, File.createPhysicalFile, File.init, hsize, isFileUnfinished_append]
  obtain ⟨f, calls, hbuilt⟩ := hex
  refine ⟨f, calls, hbuilt, ?_⟩
  obtain ⟨d2, hd2⟩ := ctor_ok_file sfx CS dir name size date hashes true true true d f calls hbuilt
  subst hd2
  have hc : (File.init sfx dir name size date true).complete = false := by
    simp [File.init, hsize, isFileUnfinished_append]
  refine ⟨by simp [File.init, hsize], hc, ?_, ?_⟩
  · intro c hcmem
    simp only [List.mem_map, List.mem_range] at hcmem
    obtain ⟨i, _, rfl⟩ := hcmem
    simp [File.seedChunk, File.chunkKnownBytes, File.isComplete, hc, toInt]
  · intro h100 hs
    have hCS : 0 < CS := by omega
    have hsz : (0:Int) ≤ 3 * CS + 100 := by omega
    simp only [List.length_map, List.length_range, hs]
    unfold getNbChunks
    rw [Int.tdiv_eq_ediv hsz (le_of_lt hCS), Int.tmod_eq_emod hsz (le_of_lt hCS)]
    rcases eq_or_lt_of_le h100 with h | h
    · subst h; decide
    · have := (Int.ediv_emod_unique (a := 3 * CS + 100) (r := 100) (q := 3) hCS).mpr
        ⟨by ring, by omega, h⟩
      rw [this.1, this.2]
      decide

/-- C4 on the download of a file of `3 * CHUNK_SIZE + 100` bytes, with chunks of 32 MiB. -/
theorem c4_created_unfinished_witness :
    (0 : Int) < 100663396 ∧
    ∃ f calls,
      File.ctor Sample.suffix Sample.chunkSize Sample.share "a".toList 100663396 0 [] true true
        true 5 = Result.ok (f, calls) ∧
      f.name = "a".toList ++ Sample.suffix ∧ f.complete = false ∧
      (∀ c ∈ f.chunks, c.knownBytes = 0) ∧ f.chunks.length = 4 :=
  ⟨by decide,
    (c4_created_unfinished Sample.suffix Sample.chunkSize Sample.share "a".toList 100663396 0 []
      5 (by decide)).imp fun _ h => h.imp fun _ h =>
        ⟨h.1, h.2.1, h.2.2.1, h.2.2.2.1, h.2.2.2.2 (by decide) (by decide)⟩⟩

theorem resetChunks_chunks (cs : List Chunk) :
    (resetChunks cs).1 = cs.map (Chunk.setKnownBytes 0) := by
  induction cs with
  | nil => rfl
  | cons c cs ih =>
    unfold resetChunks
    by_cases h : c.knownBytes ≠ 0
    · simp only [h, ne_eq, not_false_eq_true, if_true, List.map_cons, ih]
    · have h0 : c.knownBytes = 0 := not_not.mp h
      have hc : Chunk.setKnownBytes 0 c = c := by
        cases c; simp only [Chunk.setKnownBytes] at *; rw [h0]
      simp only [h, if_false, List.map_cons, ih, hc]

theorem resetChunks_calls (cs : List Chunk) :
    (resetChunks cs).2.1 = (cs.filter (fun c => decide (c.knownBytes ≠ 0))).map
      (fun c => Call.onChunkRemoved (c.setKnownBytes 0)) := by
  induction cs with
  | nil => rfl
  | cons c cs ih =>
    unfold resetChunks
    by_cases h : c.knownBytes ≠ 0
    · simp [h, ih]
    · simp [h, ih]

theorem resetChunks_flag (cs : List Chunk) :
    (resetChunks cs).2.2 = true ↔ ∃ c ∈ cs, c.knownBytes ≠ 0 := by
  induction cs with
  | nil => simp [resetChunks]
  | cons c cs ih =>
    unfold resetChunks
    by_cases h : c.knownBytes ≠ 0
    · simp [h]
    · simp only [h, if_false, ih, List.mem_cons, exists_eq_or_imp, false_or]

/-- C5, as stated, fails. The writer count goes from 0 to 1, the pool opens the file and
reports it created, every chunk has no known byte, and the resize fails: the call does not
succeed, it raises `UnableToOpenFileInWriteModeException`. -/
theorem c5_counterexample :
    Sample.download.numDataWriter = 0 ∧
    (∀ c ∈ Sample.download.chunks, c.knownBytes = 0) ∧
    (Sample.download.newDataWriterCreated (some 1) true false).result
      = Result.raised Exn.UnableToOpenFileInWriteModeException := by
  decide

/-- C5, amended. `newDataWriterCreated` raises `FileResetException` if and only if the writer
count goes from 0 to 1, the pool opens the file and reports it created, the resize succeeds and
a chunk has known bytes; then, on return, every chunk has no known byte and `onChunkRemoved` was
called for exactly the chunks that had some, in their order. When the count goes from 0 to 1,
the open created the file, the resize succeeds and every chunk had no known byte, the call
succeeds. -/
theorem c5_file_reset (opened : Option Nat) (fileCreated resizeOk : Bool) (f : File) :
    ((f.newDataWriterCreated opened fileCreated resizeOk).result
        = Result.raised Exn.FileResetException ↔
      (f.numDataWriter = 0 ∧ opened.isSome = true ∧ fileCreated = true ∧ resizeOk = true ∧
        ∃ c ∈ f.chunks, c.knownBytes ≠ 0))
    ∧ ((f.newDataWriterCreated opened fileCreated resizeOk).result
        = Result.raised Exn.FileResetException →
      (∀ c ∈ (f.newDataWriterCreated opened fileCreated resizeOk).file.chunks, c.knownBytes = 0) ∧
      (f.newDataWriterCreated opened fileCreated resizeOk).file.chunks
        = f.chunks.map (Chunk.setKnownBytes 0) ∧
      (f.newDataWriterCreated opened fileCreated resizeOk).calls.filter Call.isOnChunkRemoved
        = (f.chunks.filter (fun c => decide (c.knownBytes ≠ 0))).map
            (fun c => Call.onChunkRemoved (c.setKnownBytes 0)))
    ∧ (f.numDataWriter = 0 → opened.isSome = true → fileCreated = true → resizeOk = true →
        (∀ c ∈ f.chunks, c.knownBytes = 0) →
        (f.newDataWriterCreated opened fileCreated resizeOk).result = Result.ok ()) := by
  have hflag := resetChunks_flag f.chunks
  by_cases hn : f.numDataWriter = 0
  · cases opened with
    | none => simp [File.newDataWriterCreated, hn]
    | some h =>
      cases fileCreated
      · simp [File.newDataWriterCreated, hn]
      · cases resizeOk
        · simp [File.newDataWriterCreated, hn]
        · refine ⟨?_, ?_, ?_⟩
          · simp only [File.newDataWriterCreated, hn]
            simp only [zero_add, if_true, Bool.true_eq_false, if_false, Option.isSome_some,
              true_and, ← hflag]
            cases (resetChunks f.chunks).2.2 <;> simp
          · intro _
            simp only [File.newDataWriterCreated, hn]
            simp only [zero_add, if_true, Bool.true_eq_false, if_false, resetChunks_chunks,
              resetChunks_calls]
            refine ⟨?_, trivial, ?_⟩
            · intro c hc
              simp only [List.mem_map] at hc
              obtain ⟨c0, _, rfl⟩ := hc
              rfl
            · simp [File.getFullPath, List.filter_map, Call.isOnChunkRemoved]
          · intro _ _ _ _ hall
            have hno : (resetChunks f.chunks).2.2 = false := by
              cases hb : (resetChunks f.chunks).2.2
              · rfl
              · obtain ⟨c, hc, hk⟩ := hflag.mp hb
                exact absurd (hall c hc) hk
            simp [File.newDataWriterCreated, hn, hno]
  · have h1 : ¬ (f.numDataWriter + 1 = 1) := by omega
    simp [File.newDataWriterCreated, hn, h1]

/-- C5, amended, on the download `a`: with its byte known the call raises `FileResetException`
and resets the chunk; with no byte known it succeeds. -/
theorem c5_file_reset_witness :
    (Sample.downloaded.numDataWriter = 0 ∧ (some 1 : Option Nat).isSome = true ∧ true = true ∧
      true = true ∧ ∃ c ∈ Sample.downloaded.chunks, c.knownBytes ≠ 0) ∧
    (Sample.downloaded.newDataWriterCreated (some 1) true true).result
      = Result.raised Exn.FileResetException ∧
    (Sample.downloaded.newDataWriterCreated (some 1) true true).file.chunks
      = [{ num := 0, knownBytes := 0, hash := Hash.bytes [7] }] ∧
    (Sample.download.newDataWriterCreated (some 1) true true).result = Result.ok () :=
  ⟨by decide,
    (c5_file_reset (some 1) true true Sample.downloaded).1.mpr (by decide),
    ((c5_file_reset (some 1) true true Sample.downloaded).2.1 (by decide)).2.1,
    (c5_file_reset (some 1) true true Sample.download).2.2 (by decide) (by decide) (by decide)
      (by decide) (by decide)⟩

/-- C6. `write` raises `IOErrorException` if and only if the write handle is not open, or the
offset is not below the size, or the seek fails, or the write of the handle returns -1.
Otherwise it returns what the handle returns, after a seek to the offset and a write of exactly
`min(nbBytes, size - offset)` bytes asked of the handle: the bytes asked for end at the size at
most, and so do the bytes written, a handle writing no more than it is asked. The members of the
file, its size among them, are unchanged in every case. -/
theorem c6_write (nbBytes offset : Int) (seekOk : Bool) (written : Int) (f : File) :
    ((f.write nbBytes offset seekOk written).result = Result.raised Exn.IOErrorException ↔
      (f.fileInWriteMode = none ∨ offset ≥ f.size ∨ seekOk = false ∨ written = -1))
    ∧ (¬ (f.fileInWriteMode = none ∨ offset ≥ f.size ∨ seekOk = false ∨ written = -1) →
        (f.write nbBytes offset seekOk written).result = Result.ok written ∧
        (∃ h, f.fileInWriteMode = some h ∧
          (f.write nbBytes offset seekOk written).calls =
            [Call.seek h offset, Call.write h (min nbBytes (f.size - offset))]) ∧
        offset + min nbBytes (f.size - offset) ≤ f.size ∧
        (written ≤ min nbBytes (f.size - offset) → offset + written ≤ f.size))
    ∧ (f.write nbBytes offset seekOk written).file = f := by
  have hmin : (if nbBytes > f.size - offset then f.size - offset else nbBytes)
      = min nbBytes (f.size - offset) := by
    split <;> omega
  cases hh : f.fileInWriteMode with
  | none => simp [File.write, hh]
  | some h =>
    by_cases ho : offset ≥ f.size
    · simp [File.write, hh, ho]
    · cases seekOk
      · simp [File.write, hh, ho]
      · by_cases hw : written = -1
        · simp [File.write, hh, ho, hw]
        · simp only [File.write, hh, ho, hw, hmin]
          simp
          omega

/-- C6 on the download `a` of one byte with an open write handle: ten bytes given at the offset
0, one byte asked of the handle and written. -/
theorem c6_write_witness :
    ¬ (Sample.opened.fileInWriteMode = none ∨ (0 : Int) ≥ Sample.opened.size ∨ true = false ∨
      (1 : Int) = -1) ∧
    (Sample.opened.write 10 0 true 1).result = Result.ok 1 ∧
    (Sample.opened.write 10 0 true 1).calls = [Call.seek 3 0, Call.write 3 1] ∧
    (0 : Int) + 1 ≤ Sample.opened.size :=
  ⟨by decide,
    ((c6_write 10 0 true 1 Sample.opened).2.1 (by decide)).1,
    by decide,
    ((c6_write 10 0 true 1 Sample.opened).2.1 (by decide)).2.2.2 (by decide)⟩

/-- C7. For every offset not below the size, `read` returns 0, raises nothing and makes no call
to the handle. For an offset below the size and an open read handle, it raises
`IOErrorException` exactly when the seek fails or the read of the handle returns -1, and
otherwise returns what the handle returns, after a seek to the offset and a read of
`maxBytesToRead` bytes. The members of the file are unchanged in every case. -/
theorem c7_read (offset maxBytesToRead : Int) (seekOk : Bool) (bytesRead : Int) (f : File) :
    (offset ≥ f.size →
      (f.read offset maxBytesToRead seekOk bytesRead).result = Result.ok 0 ∧
      (f.read offset maxBytesToRead seekOk bytesRead).calls = [])
    ∧ (∀ h, offset < f.size → f.fileInReadMode = some h →
        ((f.read offset maxBytesToRead seekOk bytesRead).result
            = Result.raised Exn.IOErrorException ↔ (seekOk = false ∨ bytesRead = -1)) ∧
        (¬ (seekOk = false ∨ bytesRead = -1) →
          (f.read offset maxBytesToRead seekOk bytesRead).result = Result.ok bytesRead ∧
          (f.read offset maxBytesToRead seekOk bytesRead).calls
            = [Call.seek h offset, Call.read h maxBytesToRead]))
    ∧ (f.read offset maxBytesToRead seekOk bytesRead).file = f := by
  cases hh : f.fileInReadMode with
  | none => simp [File.read, hh]
  | some h =>
    by_cases ho : offset ≥ f.size
    · simp [File.read, hh, ho]
    · cases seekOk
      · simp [File.read, hh, ho]
      · by_cases hw : bytesRead = -1
        · simp [File.read, hh, ho, hw]
        · simp [File.read, hh, ho, hw]

/-- C7 on the download `a` of one byte with an open read handle: a read at the offset 1, and a
read at the offset 0. -/
theorem c7_read_witness :
    (1 : Int) ≥ Sample.opened.size ∧
    ((Sample.opened.read 1 10 true 1).result = Result.ok 0 ∧
      (Sample.opened.read 1 10 true 1).calls = []) ∧
    ((0 : Int) < Sample.opened.size ∧ Sample.opened.fileInReadMode = some 4) ∧
    ((Sample.opened.read 0 10 true 1).result = Result.ok 1 ∧
      (Sample.opened.read 0 10 true 1).calls = [Call.seek 4 0, Call.read 4 10]) :=
  ⟨by decide, (c7_read 1 10 true 1 Sample.opened).1 (by decide), by decide,
    ((c7_read 0 10 true 1 Sample.opened).2.1 4 (by decide) (by decide)).2 (by decide)⟩

theorem acquireWriters_more (answers : List (Option Nat × Bool × Bool)) (g : File)
    (hk : 1 ≤ g.numDataWriter) :
    acquireWriters answers g =
      ({ g with numDataWriter := g.numDataWriter + answers.length }, [], true) := by
  induction answers generalizing g with
  | nil => simp [acquireWriters]
  | cons a rest ih =>
    have h1 : ¬ (g.numDataWriter + 1 = 1) := by omega
    unfold acquireWriters
    simp only [File.newDataWriterCreated, h1, if_false]
    rw [ih _ (by simp only; omega)]
    simp only [List.length_cons, Nat.cast_add, Nat.cast_one, List.append_nil, beq_self_eq_true,
      Bool.and_self, add_assoc, add_comm (1 : Int)]

theorem releaseWriters_before (m : Nat) (g : File) (hk : (m : Int) < g.numDataWriter) :
    releaseWriters m g = ({ g with numDataWriter := g.numDataWriter - m }, []) := by
  induction m generalizing g with
  | zero => simp [releaseWriters]
  | succ m ih =>
    have h1 : ¬ (g.numDataWriter - 1 = 0) := by push_cast at hk; omega
    unfold releaseWriters
    simp only [File.dataWriterDeleted, h1, if_false]
    rw [ih _ (by push_cast at hk; simp only; omega)]
    simp only [List.append_nil, Nat.cast_add, Nat.cast_one, sub_sub, add_comm (1 : Int)]

theorem releaseWriters_last (m : Nat) (g : File) :
    releaseWriters (m + 1) g =
      ((releaseWriters m g).1.dataWriterDeleted.1,
        (releaseWriters m g).2 ++ (releaseWriters m g).1.dataWriterDeleted.2) := by
  induction m generalizing g with
  | zero => simp [releaseWriters]
  | succ m ih =>
    rw [releaseWriters, ih]
    simp [releaseWriters]

theorem releaseWriters_all (n : Nat) (g : File) (hn : 1 ≤ n) (hk : g.numDataWriter = n) :
    releaseWriters n g =
      ({ g with numDataWriter := 0, fileInWriteMode := none },
        [Call.poolRelease g.fileInWriteMode false]) := by
  obtain ⟨m, rfl⟩ : ∃ m, n = m + 1 := ⟨n - 1, by omega⟩
  rw [releaseWriters_last, releaseWriters_before m g (by rw [hk]; push_cast; omega)]
  simp [File.dataWriterDeleted, hk]

theorem newDataWriterCreated_first (a : Option Nat × Bool × Bool) (f : File)
    (h0 : f.numDataWriter = 0)
    (hok : (f.newDataWriterCreated a.1 a.2.1 a.2.2).result = Result.ok ()) :
    ∃ h, a.1 = some h ∧
      (f.newDataWriterCreated a.1 a.2.1 a.2.2).file.numDataWriter = 1 ∧
      (f.newDataWriterCreated a.1 a.2.1 a.2.2).file.fileInWriteMode = some h ∧
      (f.newDataWriterCreated a.1 a.2.1 a.2.2).calls.countP Call.isPoolOpen = 1 ∧
      (f.newDataWriterCreated a.1 a.2.1 a.2.2).calls.countP Call.isPoolRelease = 0 := by
  obtain ⟨opened, fileCreated, resizeOk⟩ := a
  cases opened with
  | none => simp [File.newDataWriterCreated, h0] at hok
  | some h =>
    refine ⟨h, rfl, ?_⟩
    cases fileCreated
    · simp [File.newDataWriterCreated, h0, Call.isPoolOpen, Call.isPoolRelease]
    · cases resizeOk
      · simp [File.newDataWriterCreated, h0] at hok
      · simp only [File.newDataWriterCreated, h0, resetChunks_calls]
        simp [Call.isPoolOpen, Call.isPoolRelease, List.countP_eq_zero, List.countP_cons]



theorem acquireReaders_more (answers : List (Option Nat)) (g : File)
    (hk : 1 ≤ g.numDataReader) :
    acquireReaders answers g =
      ({ g with numDataReader := g.numDataReader + answers.length }, [], true) := by
  induction answers generalizing g with
  | nil => simp [acquireReaders]
  | cons a rest ih =>
    have h1 : ¬ (g.numDataReader + 1 = 1) := by omega
    unfold acquireReaders
    simp only [File.newDataReaderCreated, h1, if_false]
    rw [ih _ (by simp only; omega)]
    simp only [List.length_cons, Nat.cast_add, Nat.cast_one, List.append_nil, beq_self_eq_true,
      Bool.and_self, add_assoc, add_comm (1 : Int)]

theorem releaseReaders_before (m : Nat) (g : File) (hk : (m : Int) < g.numDataReader) :
    releaseReaders m g = ({ g with numDataReader := g.numDataReader - m }, []) := by
  induction m generalizing g with
  | zero => simp [releaseReaders]
  | succ m ih =>
    have h1 : ¬ (g.numDataReader - 1 = 0) := by push_cast at hk; omega
    unfold releaseReaders
    simp only [File.dataReaderDeleted, h1, if_false]
    rw [ih _ (by push_cast at hk; simp only; omega)]
    simp only [List.append_nil, Nat.cast_add, Nat.cast_one, sub_sub, add_comm (1 : Int)]

theorem releaseReaders_last (m : Nat) (g : File) :
    releaseReaders (m + 1) g =
      ((releaseReaders m g).1.dataReaderDeleted.1,
        (releaseReaders m g).2 ++ (releaseReaders m g).1.dataReaderDeleted.2) := by
  induction m generalizing g with
  | zero => simp [releaseReaders]
  | succ m ih =>
    rw [releaseReaders, ih]
    simp [releaseReaders]

theorem releaseReaders_all (n : Nat) (g : File) (hn : 1 ≤ n) (hk : g.numDataReader = n) :
    releaseReaders n g =
      ({ g with numDataReader := 0, fileInReadMode := none },
        [Call.poolRelease g.fileInReadMode false]) := by
  obtain ⟨m, rfl⟩ : ∃ m, n = m + 1 := ⟨n - 1, by omega⟩
  rw [releaseReaders_last, releaseReaders_before m g (by rw [hk]; push_cast; omega)]
  simp [File.dataReaderDeleted, hk]

theorem newDataReaderCreated_first (a : Option Nat) (f : File)
    (h0 : f.numDataReader = 0)
    (hok : (f.newDataReaderCreated a).result = Result.ok ()) :
    ∃ h, a = some h ∧
      (f.newDataReaderCreated a).file.numDataReader = 1 ∧
      (f.newDataReaderCreated a).file.fileInReadMode = some h ∧
      (f.newDataReaderCreated a).calls.countP Call.isPoolOpen = 1 ∧
      (f.newDataReaderCreated a).calls.countP Call.isPoolRelease = 0 := by
  cases a with
  | none => simp [File.newDataReaderCreated, h0] at hok
  | some h =>
    refine ⟨h, rfl, ?_⟩
    simp [File.newDataReaderCreated, h0, Call.isPoolOpen, Call.isPoolRelease]

/-- C8. From a file with no writer (`numDataWriter = 0`, null write handle), `n ≥ 1` calls of
`newDataWriterCreated` that all return without an exception, followed by `n` calls of
`dataWriterDeleted`: the first acquisition makes the one call of `FilePool::open` and no call of
`FilePool::release` is made by the acquisitions; the first `n - 1` releases make no call and the
last one makes the one call of `FilePool::release`, for the handle that was opened; at the end
`numDataWriter = 0` and the write handle is null. The same holds for `newDataReaderCreated`
and `dataReaderDeleted` with the read handle. -/
theorem c8_one_open_one_release :
    (∀ (f : File) (answers : List (Option Nat × Bool × Bool)),
      f.numDataWriter = 0 → f.fileInWriteMode = none → 1 ≤ answers.length →
      (acquireWriters answers f).2.2 = true →
      ∃ h a rest, answers = a :: rest ∧ a.1 = some h ∧
        (f.newDataWriterCreated a.1 a.2.1 a.2.2).calls.countP Call.isPoolOpen = 1 ∧
        (acquireWriters answers f).2.1.countP Call.isPoolOpen = 1 ∧
        (acquireWriters answers f).2.1.countP Call.isPoolRelease = 0 ∧
        (releaseWriters (answers.length - 1) (acquireWriters answers f).1).2 = [] ∧
        (releaseWriters answers.length (acquireWriters answers f).1).2
          = [Call.poolRelease (some h) false] ∧
        (releaseWriters answers.length (acquireWriters answers f).1).1.numDataWriter = 0 ∧
        (releaseWriters answers.length (acquireWriters answers f).1).1.fileInWriteMode = none)
    ∧ (∀ (f : File) (answers : List (Option Nat)),
      f.numDataReader = 0 → f.fileInReadMode = none → 1 ≤ answers.length →
      (acquireReaders answers f).2.2 = true →
      ∃ h a rest, answers = a :: rest ∧ a = some h ∧
        (f.newDataReaderCreated a).calls.countP Call.isPoolOpen = 1 ∧
        (acquireReaders answers f).2.1.countP Call.isPoolOpen = 1 ∧
        (acquireReaders answers f).2.1.countP Call.isPoolRelease = 0 ∧
        (releaseReaders (answers.length - 1) (acquireReaders answers f).1).2 = [] ∧
        (releaseReaders answers.length (acquireReaders answers f).1).2
          = [Call.poolRelease (some h) false] ∧
        (releaseReaders answers.length (acquireReaders answers f).1).1.numDataReader = 0 ∧
        (releaseReaders answers.length (acquireReaders answers f).1).1.fileInReadMode = none) := by
  constructor
  · intro f answers h0 _ hlen hok
    cases answers with
    | nil => simp at hlen
    | cons a rest =>
      simp only [acquireWriters, Bool.and_eq_true, beq_iff_eq] at hok
      obtain ⟨h, ha, hnum, hslot, hopen, hrel⟩ := newDataWriterCreated_first a f h0 hok.1
      refine ⟨h, a, rest, rfl, ha, hopen, ?_⟩
      have hmore := acquireWriters_more rest (f.newDataWriterCreated a.1 a.2.1 a.2.2).file
        (by rw [hnum])
      have hacq : acquireWriters (a :: rest) f =
          ({ (f.newDataWriterCreated a.1 a.2.1 a.2.2).file with
              numDataWriter := 1 + rest.length },
            (f.newDataWriterCreated a.1 a.2.1 a.2.2).calls, true) := by
        rw [acquireWriters, hmore, hnum]
        simp [hok.1]
      rw [hacq]
      simp only [List.length_cons, Nat.add_sub_cancel]
      rw [releaseWriters_before rest.length _ (by simp only; omega),
        releaseWriters_all (rest.length + 1) _ (by omega) (by simp only; push_cast; omega)]
      simp [hopen, hrel, hslot]
  · intro f answers h0 _ hlen hok
    cases answers with
    | nil => simp at hlen
    | cons a rest =>
      simp only [acquireReaders, Bool.and_eq_true, beq_iff_eq] at hok
      obtain ⟨h, ha, hnum, hslot, hopen, hrel⟩ := newDataReaderCreated_first a f h0 hok.1
      refine ⟨h, a, rest, rfl, ha, hopen, ?_⟩
      have hmore := acquireReaders_more rest (f.newDataReaderCreated a).file (by rw [hnum])
      have hacq : acquireReaders (a :: rest) f =
          ({ (f.newDataReaderCreated a).file with numDataReader := 1 + rest.length },
            (f.newDataReaderCreated a).calls, true) := by
        rw [acquireReaders, hmore, hnum]
        simp [hok.1]
      rw [hacq]
      simp only [List.length_cons, Nat.add_sub_cancel]
      rw [releaseReaders_before rest.length _ (by simp only; omega),
        releaseReaders_all (rest.length + 1) _ (by omega) (by simp only; push_cast; omega)]
      simp [hopen, hrel, hslot]

/-- C8 on the download `a`: three writers acquired and released, then two readers. -/
theorem c8_one_open_one_release_witness :
    (acquireWriters [(some 3, false, false), (none, true, true), (some 9, true, false)]
        Sample.download).2.1
      = [Call.poolOpen "/share/a.unfinished".toList OpenMode.ReadWrite] ∧
    (releaseWriters 3 (acquireWriters [(some 3, false, false), (none, true, true),
        (some 9, true, false)] Sample.download).1).2 = [Call.poolRelease (some 3) false] ∧
    (∃ h a rest, [some 4, none] = a :: rest ∧ a = some h ∧
      (Sample.download.newDataReaderCreated a).calls.countP Call.isPoolOpen = 1 ∧
      (acquireReaders [some 4, none] Sample.download).2.1.countP Call.isPoolOpen = 1 ∧
      (acquireReaders [some 4, none] Sample.download).2.1.countP Call.isPoolRelease = 0 ∧
      (releaseReaders ([some 4, none].length - 1)
        (acquireReaders [some 4, none] Sample.download).1).2 = [] ∧
      (releaseReaders [some 4, none].length (acquireReaders [some 4, none] Sample.download).1).2
        = [Call.poolRelease (some h) false] ∧
      (releaseReaders [some 4, none].length
        (acquireReaders [some 4, none] Sample.download).1).1.numDataReader = 0 ∧
      (releaseReaders [some 4, none].length
        (acquireReaders [some 4, none] Sample.download).1).1.fileInReadMode = none) :=
  ⟨by decide, by decide,
    c8_one_open_one_release.2 Sample.download [some 4, none] (by decide) (by decide) (by decide)
      (by decide)⟩

theorem chunkCompleteLoop_count (CS size : Int) (chunk : Option Nat) (i : Nat) (cs : List Chunk) :
    (chunkCompleteLoop CS size chunk i cs).2 =
      ((cs.countP (fun c => c.isComplete CS size) : Nat) : Int) := by
  induction cs generalizing i with
  | nil => rfl
  | cons c cs ih =>
    unfold chunkCompleteLoop
    simp only [ih, List.countP_cons]
    split
    · simp; omega
    · simp

theorem chunkCompleteLoop_calls (CS size : Int) (chunk : Option Nat) (i : Nat) (cs : List Chunk) :
    ∀ c ∈ (chunkCompleteLoop CS size chunk i cs).1, ∃ ch, c = Call.onChunkHashKnown ch := by
  induction cs generalizing i with
  | nil => intro c hc; simp [chunkCompleteLoop] at hc
  | cons c0 cs ih =>
    intro c hc
    unfold chunkCompleteLoop at hc
    simp only [List.mem_append] at hc
    rcases hc with hc | hc
    · split at hc
      · simp only [List.mem_singleton] at hc; exact ⟨c0, hc⟩
      · simp at hc
    · exact ih _ c hc

theorem setAsComplete_done (sfx : QString) (d : Int) (f : File)
    (hu : isFileUnfinished sfx f.name = true) :
    (f.setAsComplete sfx true d).1.name = removeUnfinishedSuffix sfx f.name ∧
      (f.setAsComplete sfx true d).1.complete = true := by
  unfold File.setAsComplete
  simp only [hu, if_true, Bool.true_eq_false, if_false]
  split_ifs <;> simp

/-- C9, as stated, fails. The unfinished file `a.unfinished.unfinished` (the download of a file
named `a.unfinished`) has its only chunk complete and the rename succeeds: after `chunkComplete`
the file is complete and its name, `a.unfinished`, still carries the suffix. -/
theorem c9_counterexample :
    isFileUnfinished ".unfinished".toList "a.unfinished.unfinished".toList = true ∧
    (∀ c ∈ ([{ num := 0, knownBytes := 1, hash := Hash.bytes [7] }] : List Chunk),
      c.isComplete 33554432 1 = true) ∧
    (fun p : File × List Call => (p.1.name, p.1.complete,
        isFileUnfinished ".unfinished".toList p.1.name, p.2))
      (File.chunkComplete ".unfinished".toList 33554432 (some 0) true 9
        { dirFullPath := "/share/".toList, name := "a.unfinished.unfinished".toList, size := 1,
          dateLastModified := 0, complete := false, numDataWriter := 0, numDataReader := 0,
          fileInWriteMode := none, fileInReadMode := none,
          chunks := [{ num := 0, knownBytes := 1, hash := Hash.bytes [7] }] })
      = ("a.unfinished".toList, true, true,
          [Call.onChunkHashKnown { num := 0, knownBytes := 1, hash := Hash.bytes [7] },
           Call.fsRename "/share/a.unfinished.unfinished".toList "/share/a.unfinished".toList,
           Call.onEntryAdded "a.unfinished".toList]) := by
  decide

/-- C9, amended. For a file whose chunk list has ⌈size / CHUNK_SIZE⌉ chunks (fewer than 2^31, as
a `QVector` holds): when every chunk is complete `chunkComplete` runs `setAsComplete` after its
notifications, and when a chunk is incomplete it only makes its notifications (calls of
`onChunkHashKnown`) and leaves every member, the name and the flag `complete` among them,
unchanged. For an unfinished file whose name carries the suffix once only, after the call that
finds all chunks complete, with a successful rename, the name is the old name without the
suffix, it does not end with the suffix, and `complete` is true. -/
theorem c9_chunk_complete (sfx : QString) (CS : Int) (chunk : Option Nat) (renameOk : Bool)
    (fsDate : Int) (f : File) (hCS : 0 < CS) (hsize : 0 ≤ f.size)
    (hvec : f.chunks.length < 2147483648)
    (hlen : (f.chunks.length : Int) = Int.ceil ((f.size : ℚ) / (CS : ℚ))) :
    ((∀ c ∈ f.chunks, c.isComplete CS f.size = true) →
      f.chunkComplete sfx CS chunk renameOk fsDate =
        ((f.setAsComplete sfx renameOk fsDate).1,
          (chunkCompleteLoop CS f.size chunk 0 f.chunks).1 ++
            (f.setAsComplete sfx renameOk fsDate).2))
    ∧ (¬ (∀ c ∈ f.chunks, c.isComplete CS f.size = true) →
      f.chunkComplete sfx CS chunk renameOk fsDate =
        (f, (chunkCompleteLoop CS f.size chunk 0 f.chunks).1))
    ∧ (∀ c ∈ (chunkCompleteLoop CS f.size chunk 0 f.chunks).1, ∃ ch, c = Call.onChunkHashKnown ch)
    ∧ ((∀ c ∈ f.chunks, c.isComplete CS f.size = true) → renameOk = true →
        isFileUnfinished sfx f.name = true → suffixAtMostOnce sfx f.name = true →
        (f.chunkComplete sfx CS chunk renameOk fsDate).1.name = removeUnfinishedSuffix sfx f.name ∧
        isFileUnfinished sfx (f.chunkComplete sfx CS chunk renameOk fsDate).1.name = false ∧
        (f.chunkComplete sfx CS chunk renameOk fsDate).1.complete = true) := by
  have hnb : f.getNbChunks CS = (f.chunks.length : Int) := by
    rw [File.getNbChunks, hlen]
    exact getNbChunks_eq_ceil CS f.size hCS hsize (by rw [← hlen]; exact_mod_cast hvec)
  have hiff : (chunkCompleteLoop CS f.size chunk 0 f.chunks).2 = f.getNbChunks CS ↔
      ∀ c ∈ f.chunks, c.isComplete CS f.size = true := by
    rw [hnb, chunkCompleteLoop_count, Nat.cast_inj, List.countP_eq_length]
  have hall : (∀ c ∈ f.chunks, c.isComplete CS f.size = true) →
      f.chunkComplete sfx CS chunk renameOk fsDate =
        ((f.setAsComplete sfx renameOk fsDate).1,
          (chunkCompleteLoop CS f.size chunk 0 f.chunks).1 ++
            (f.setAsComplete sfx renameOk fsDate).2) := by
    intro h
    unfold File.chunkComplete
    simp only [hiff.mpr h, if_true]
  refine ⟨hall, ?_, chunkCompleteLoop_calls CS f.size chunk 0 f.chunks, ?_⟩
  · intro h
    unfold File.chunkComplete
    simp only [mt hiff.mp h, if_false]
  · intro h hok hu h1
    rw [hall h]
    obtain ⟨hn, hc⟩ := setAsComplete_done sfx fsDate f hu
    subst hok
    refine ⟨hn, ?_, hc⟩
    simp only [hn]
    simpa [suffixAtMostOnce] using h1

/-- C9, amended, on the download `a` with its byte known: the file becomes `a`, complete. -/
theorem c9_chunk_complete_witness :
    (0 : Int) < Sample.chunkSize ∧ (0 : Int) ≤ Sample.downloaded.size ∧
    Sample.downloaded.chunks.length < 2147483648 ∧
    ((Sample.downloaded.chunks.length : Int)
      = Int.ceil ((Sample.downloaded.size : ℚ) / ((Sample.chunkSize : Int) : ℚ))) ∧
    (∀ c ∈ Sample.downloaded.chunks,
      c.isComplete Sample.chunkSize Sample.downloaded.size = true) ∧
    isFileUnfinished Sample.suffix Sample.downloaded.name = true ∧
    suffixAtMostOnce Sample.suffix Sample.downloaded.name = true ∧
    ((Sample.downloaded.chunkComplete Sample.suffix Sample.chunkSize (some 0) true 9).1.name
        = removeUnfinishedSuffix Sample.suffix Sample.downloaded.name ∧
      isFileUnfinished Sample.suffix
        (Sample.downloaded.chunkComplete Sample.suffix Sample.chunkSize (some 0) true 9).1.name
        = false ∧
      (Sample.downloaded.chunkComplete Sample.suffix Sample.chunkSize (some 0) true 9).1.complete
        = true) :=
  ⟨by decide, by decide, by decide,
    by rw [ceil_div_eq Sample.chunkSize Sample.downloaded.size (by decide)]; decide,
    by decide, by decide, by decide,
    (c9_chunk_complete Sample.suffix Sample.chunkSize (some 0) true 9 Sample.downloaded
      (by decide) (by decide) (by decide)
      (by rw [ceil_div_eq Sample.chunkSize Sample.downloaded.size (by decide)]; decide)).2.2.2
      (by decide) rfl (by decide) (by decide)⟩

/-- C10. `setAsComplete` on a file whose name does not carry the unfinished suffix changes no
member and makes no call (no rename, no call to the pool, no notification). When the rename
reports a failure, the name, the flag `complete` and `dateLastModified` are unchanged and the
entry index of the Cache is not notified: the file stays unfinished. -/
theorem c10_setAsComplete_unchanged (sfx : QString) (renameOk : Bool) (fsDate : Int) (f : File) :
    (isFileUnfinished sfx f.name = false → f.setAsComplete sfx renameOk fsDate = (f, []))
    ∧ (renameOk = false →
        (f.setAsComplete sfx renameOk fsDate).1.name = f.name ∧
        (f.setAsComplete sfx renameOk fsDate).1.complete = f.complete ∧
        (f.setAsComplete sfx renameOk fsDate).1.dateLastModified = f.dateLastModified ∧
        ∀ n, Call.onEntryAdded n ∉ (f.setAsComplete sfx renameOk fsDate).2 ∧
          Call.onEntryRemoved n ∉ (f.setAsComplete sfx renameOk fsDate).2) := by
  constructor
  · intro h
    simp [File.setAsComplete, h]
  · intro h
    subst h
    unfold File.setAsComplete
    by_cases hu : isFileUnfinished sfx f.name = true
    · simp only [hu, if_true]
      split_ifs <;> simp
    · simp [hu]

/-- C10 on the shared file `b`, whose name has no suffix, and on the download `a`, whose rename
fails. -/
theorem c10_setAsComplete_unchanged_witness :
    isFileUnfinished Sample.suffix Sample.shared.name = false ∧
    Sample.shared.setAsComplete Sample.suffix true 9 = (Sample.shared, []) ∧
    ((Sample.downloaded.setAsComplete Sample.suffix false 9).1.name = Sample.downloaded.name ∧
      (Sample.downloaded.setAsComplete Sample.suffix false 9).1.complete = false) :=
  ⟨by decide, (c10_setAsComplete_unchanged Sample.suffix true 9 Sample.shared).1 (by decide),
    ((c10_setAsComplete_unchanged Sample.suffix false 9 Sample.downloaded).2 rfl).1,
    ((c10_setAsComplete_unchanged Sample.suffix false 9 Sample.downloaded).2 rfl).2.1⟩

theorem isFileUnfinished_path (sfx dir name : QString) (h : isFileUnfinished sfx name = true) :
    isFileUnfinished sfx (dir ++ name) = true := by
  unfold isFileUnfinished at *
  rw [List.isSuffixOf_iff_suffix] at *
  exact h.trans (List.suffix_append dir name)

theorem removeUnfinishedSuffix_path (sfx dir name : QString)
    (h : isFileUnfinished sfx name = true) :
    removeUnfinishedSuffix sfx (dir ++ name) = dir ++ removeUnfinishedSuffix sfx name := by
  have hlen : sfx.length ≤ name.length := by
    unfold isFileUnfinished at h
    exact (List.isSuffixOf_iff_suffix.mp h).length_le
  unfold removeUnfinishedSuffix
  rw [isFileUnfinished_path sfx dir name h, h]
  simp only [if_true, List.length_append]
  rw [List.take_append_eq_append_take]
  have h1 : dir.length + name.length - sfx.length - dir.length = name.length - sfx.length := by
    omega
  rw [h1, List.take_of_length_le (by omega)]

theorem setAsComplete_dirFullPath (sfx : QString) (ok : Bool) (d : Int) (f : File) :
    (f.setAsComplete sfx ok d).1.dirFullPath = f.dirFullPath := by
  unfold File.setAsComplete
  split_ifs <;> rfl

theorem setAsComplete_failed_name (sfx : QString) (d : Int) (f : File) :
    (f.setAsComplete sfx false d).1.name = f.name := by
  unfold File.setAsComplete
  split_ifs <;> first | rfl | simp_all

/-- C11. For a file whose name carries the unfinished suffix, when the rename succeeds
`setAsComplete` renames, once, the path `oldPath` to `removeUnfinishedSuffix(oldPath)`, sets
`complete = true`, sets the name to `removeUnfinishedSuffix(name)` (the new full path is the
path the file was renamed to), takes the date of the file system and notifies the Cache with
`onEntryAdded` exactly once, for the new name. The same holds for the attempt made after a
`setAsComplete` whose rename failed. -/
theorem c11_setAsComplete_success (sfx : QString) (fsDate : Int) (f : File)
    (hu : isFileUnfinished sfx f.name = true) :
    ((f.setAsComplete sfx true fsDate).2.filter Call.isFsRename
        = [Call.fsRename f.getFullPath (removeUnfinishedSuffix sfx f.getFullPath)] ∧
      (f.setAsComplete sfx true fsDate).1.complete = true ∧
      (f.setAsComplete sfx true fsDate).1.name = removeUnfinishedSuffix sfx f.name ∧
      (f.setAsComplete sfx true fsDate).1.getFullPath = removeUnfinishedSuffix sfx f.getFullPath ∧
      (f.setAsComplete sfx true fsDate).1.dateLastModified = fsDate ∧
      (f.setAsComplete sfx true fsDate).2.filter Call.isOnEntryAdded
        = [Call.onEntryAdded (removeUnfinishedSuffix sfx f.name)])
    ∧ (∀ fsDate1 : Int,
      (((f.setAsComplete sfx false fsDate1).1.setAsComplete sfx true fsDate).2.filter
          Call.isFsRename
        = [Call.fsRename f.getFullPath (removeUnfinishedSuffix sfx f.getFullPath)] ∧
      ((f.setAsComplete sfx false fsDate1).1.setAsComplete sfx true fsDate).1.complete = true ∧
      ((f.setAsComplete sfx false fsDate1).1.setAsComplete sfx true fsDate).1.name
        = removeUnfinishedSuffix sfx f.name ∧
      ((f.setAsComplete sfx false fsDate1).1.setAsComplete sfx true fsDate).1.getFullPath
        = removeUnfinishedSuffix sfx f.getFullPath ∧
      ((f.setAsComplete sfx false fsDate1).1.setAsComplete sfx true fsDate).2.filter
          Call.isOnEntryAdded
        = [Call.onEntryAdded (removeUnfinishedSuffix sfx f.name)])) := by
  have hp := removeUnfinishedSuffix_path sfx f.dirFullPath f.name hu
  have key : ∀ g : File, g.name = f.name → g.dirFullPath = f.dirFullPath →
      (g.setAsComplete sfx true fsDate).2.filter Call.isFsRename
        = [Call.fsRename f.getFullPath (removeUnfinishedSuffix sfx f.getFullPath)] ∧
      (g.setAsComplete sfx true fsDate).1.complete = true ∧
      (g.setAsComplete sfx true fsDate).1.name = removeUnfinishedSuffix sfx f.name ∧
      (g.setAsComplete sfx true fsDate).1.getFullPath = removeUnfinishedSuffix sfx f.getFullPath ∧
      (g.setAsComplete sfx true fsDate).1.dateLastModified = fsDate ∧
      (g.setAsComplete sfx true fsDate).2.filter Call.isOnEntryAdded
        = [Call.onEntryAdded (removeUnfinishedSuffix sfx f.name)] := by
    intro g hn hd
    unfold File.setAsComplete
    simp only [hn, hu, if_true, Bool.true_eq_false, if_false]
    split_ifs <;>
      simp [File.getFullPath, hn, hd, hp, Call.isFsRename, Call.isOnEntryAdded, List.filter]
  refine ⟨key f rfl rfl, ?_⟩
  intro fsDate1
  have h := key (f.setAsComplete sfx false fsDate1).1 (setAsComplete_failed_name sfx fsDate1 f)
    (setAsComplete_dirFullPath sfx false fsDate1 f)
  exact ⟨h.1, h.2.1, h.2.2.1, h.2.2.2.1, h.2.2.2.2.2⟩

theorem toInt64_eq_iff (r : Nat) (s : Int) (hr : r < 18446744073709551616)
    (h0 : -9223372036854775808 ≤ s) (h1 : s < 9223372036854775808) :
    toInt64 (r : Int) = s ↔ r = toUInt64 s := by
  unfold toInt64 toUInt64
  omega

theorem toUInt64_of_nonneg (s : Int) (h0 : 0 ≤ s) (h1 : s < 9223372036854775808) :
    ((toUInt64 s : Nat) : Int) = s := by
  unfold toUInt64
  omega

theorem toInt64_toUInt64 (s : Int) (h0 : -9223372036854775808 ≤ s)
    (h1 : s < 9223372036854775808) : toInt64 ((toUInt64 s : Nat) : Int) = s := by
  unfold toInt64 toUInt64
  omega

/-- C11 on the download `a` with its byte known, at the first attempt and at the attempt that
follows a failed rename. -/
theorem c11_setAsComplete_success_witness :
    isFileUnfinished Sample.suffix Sample.downloaded.name = true ∧
    (Sample.downloaded.setAsComplete Sample.suffix true 9).2
      = [Call.fsRename "/share/a.unfinished".toList "/share/a".toList,
          Call.onEntryAdded "a".toList] ∧
    (Sample.downloaded.setAsComplete Sample.suffix true 9).1.name
      = removeUnfinishedSuffix Sample.suffix Sample.downloaded.name ∧
    ((Sample.downloaded.setAsComplete Sample.suffix false 8).1.setAsComplete Sample.suffix true
      9).1.complete = true :=
  ⟨by decide, by decide, (c11_setAsComplete_success Sample.suffix 9 Sample.downloaded
    (by decide)).1.2.2.1,
    ((c11_setAsComplete_success Sample.suffix 9 Sample.downloaded (by decide)).2 8).2.1⟩

/-- C12. For a record whose size and date are `uint64` values and a file whose size and date
are `qint64` values: `restoreFromFileCache(record)` returns true if and only if the size of the
record is the size of the file, its file name is the name of the file, its chunk count is the
chunk count of the file, and either the name of the file carries the unfinished suffix or the
date of the record is the last modification date of the file in milliseconds. The size and the
date are compared as 64 bit values (`toUInt64` of the value of the file, which is the value
itself when it is not negative). When it does not return true it returns false, no member of
the file (no chunk) is changed and no call is made. -/
theorem c12_restore_iff (sfx : QString) (file : HashesFile) (f : File)
    (hrs : file.size < 18446744073709551616)
    (hrd : file.date_last_modified < 18446744073709551616)
    (hs0 : -9223372036854775808 ≤ f.size) (hs1 : f.size < 9223372036854775808)
    (hd0 : -9223372036854775808 ≤ f.dateLastModified)
    (hd1 : f.dateLastModified < 9223372036854775808) :
    ((f.restoreFromFileCache sfx file).result = Result.ok true ↔
      (file.size = toUInt64 f.size ∧ file.filename = f.name ∧
        file.chunk.length = f.chunks.length ∧
        (isFileUnfinished sfx f.name = true ∨
          file.date_last_modified = toUInt64 f.dateLastModified)))
    ∧ (0 ≤ f.size → 0 ≤ f.dateLastModified →
      ((f.restoreFromFileCache sfx file).result = Result.ok true ↔
        ((file.size : Int) = f.size ∧ file.filename = f.name ∧
          file.chunk.length = f.chunks.length ∧
          (isFileUnfinished sfx f.name = true ∨
            (file.date_last_modified : Int) = f.dateLastModified))))
    ∧ ((f.restoreFromFileCache sfx file).result ≠ Result.ok true →
      (f.restoreFromFileCache sfx file).result = Result.ok false ∧
      (f.restoreFromFileCache sfx file).file = f ∧
      (f.restoreFromFileCache sfx file).calls = []) := by
  have hsz := toInt64_eq_iff file.size f.size hrs hs0 hs1
  have hdt := toInt64_eq_iff file.date_last_modified f.dateLastModified hrd hd0 hd1
  have hcode : (f.restoreFromFileCache sfx file).result = Result.ok true ↔
      (toInt64 file.size = f.size ∧ file.filename = f.name ∧
        (isFileUnfinished sfx f.name = true ∨
          toInt64 file.date_last_modified = f.dateLastModified) ∧
        f.chunks.length = file.chunk.length) := by
    unfold File.restoreFromFileCache
    split_ifs with h
    · simp [h]
    · simp [h]
  refine ⟨?_, ?_, ?_⟩
  · rw [hcode, hsz, hdt]
    constructor
    · rintro ⟨a, b, c, d⟩; exact ⟨a, b, d.symm, c⟩
    · rintro ⟨a, b, c, d⟩; exact ⟨a, b, d, c.symm⟩
  · intro hs hd
    have e1 : file.size = toUInt64 f.size ↔ (file.size : Int) = f.size := by
      unfold toUInt64; omega
    have e2 : file.date_last_modified = toUInt64 f.dateLastModified ↔
        (file.date_last_modified : Int) = f.dateLastModified := by
      unfold toUInt64; omega
    rw [hcode, hsz, hdt, e1, e2]
    constructor
    · rintro ⟨a, b, c, d⟩; exact ⟨a, b, d.symm, c⟩
    · rintro ⟨a, b, c, d⟩; exact ⟨a, b, d, c.symm⟩
  · intro hne
    unfold File.restoreFromFileCache at hne ⊢
    split_ifs with h
    · simp [h] at hne
    · exact ⟨rfl, rfl, rfl⟩

/-- C12 on the shared file `b`: its own record is accepted, a record with another size is
refused. -/
theorem c12_restore_iff_witness :
    (Sample.record.size < 18446744073709551616 ∧
      Sample.record.date_last_modified < 18446744073709551616 ∧
      (-9223372036854775808 : Int) ≤ Sample.shared.size ∧
      Sample.shared.size < 9223372036854775808 ∧
      (-9223372036854775808 : Int) ≤ Sample.shared.dateLastModified ∧
      Sample.shared.dateLastModified < 9223372036854775808) ∧
    (Sample.shared.restoreFromFileCache Sample.suffix Sample.record).result = Result.ok true ∧
    (Sample.shared.restoreFromFileCache Sample.suffix
      { Sample.record with size := 5 }).result = Result.ok false :=
  ⟨by decide,
    (c12_restore_iff Sample.suffix Sample.record Sample.shared (by decide) (by decide)
      (by decide) (by decide) (by decide) (by decide)).1.mpr (by decide),
    ((c12_restore_iff Sample.suffix { Sample.record with size := 5 } Sample.shared (by decide)
      (by decide) (by decide) (by decide) (by decide) (by decide)).2.2 (by decide)).1⟩

/-- C13. For every file whose size and last modification date are `qint64` values (any name,
any chunk list), `restoreFromFileCache` applied to the record that `populateHashesFile` fills
from a new record, the file being the same, returns true. -/
theorem c13_round_trip (sfx : QString) (f : File)
    (hs0 : -9223372036854775808 ≤ f.size) (hs1 : f.size < 9223372036854775808)
    (hd0 : -9223372036854775808 ≤ f.dateLastModified)
    (hd1 : f.dateLastModified < 9223372036854775808) :
    (f.restoreFromFileCache sfx (f.populateHashesFile HashesFile.new)).result
      = Result.ok true := by
  unfold File.restoreFromFileCache File.populateHashesFile HashesFile.new
  simp only [toInt64_toUInt64 f.size hs0 hs1, toInt64_toUInt64 f.dateLastModified hd0 hd1,
    List.nil_append, List.length_map, or_true, and_self, if_true]

/-- C13 on the shared file `b`. -/
theorem c13_round_trip_witness :
    ((-9223372036854775808 : Int) ≤ Sample.shared.size ∧
      Sample.shared.size < 9223372036854775808 ∧
      (-9223372036854775808 : Int) ≤ Sample.shared.dateLastModified ∧
      Sample.shared.dateLastModified < 9223372036854775808) ∧
    Sample.shared.populateHashesFile HashesFile.new = Sample.record ∧
    (Sample.shared.restoreFromFileCache Sample.suffix
      (Sample.shared.populateHashesFile HashesFile.new)).result = Result.ok true :=
  ⟨by decide, by decide,
    c13_round_trip Sample.suffix Sample.shared (by decide) (by decide) (by decide) (by decide)⟩

theorem setHashesBody_snd (CS : Int) (hs : List Hash) (st : File × List Call) (i : Nat) :
    (File.setHashesBody CS hs st i).2 = st.2 ∨
      ∃ ch, ch.isComplete CS st.1.size = true ∧ ch.knownBytes = st.1.chunkKnownBytes CS i ∧
        (File.setHashesBody CS hs st i).2 = st.2 ++ [Call.onChunkHashKnown ch] := by
  unfold File.setHashesBody
  by_cases h : i < hs.length ∧ (hs.getD i Hash.null).isNull = false
  · simp only [h, and_self, if_true]
    split
    · rename_i hc
      right
      exact ⟨_, hc, rfl, rfl⟩
    · left; rfl
  · simp only [h, if_false]
    left; trivial

theorem setHashes_fold_calls (CS : Int) (hs : List Hash) (f : File) (n : Nat) :
    ∀ c ∈ ((List.range n).foldl (File.setHashesBody CS hs) (f, [])).2,
      ∃ ch, c = Call.onChunkHashKnown ch := by
  induction n with
  | zero => intro c hc; simp at hc
  | succ n ih =>
    intro c hc
    rw [List.range_succ, List.foldl_append, List.foldl_cons, List.foldl_nil] at hc
    rcases setHashesBody_snd CS hs ((List.range n).foldl (File.setHashesBody CS hs) (f, [])) n
      with h | ⟨ch, _, _, h⟩
    · rw [h] at hc; exact ih c hc
    · rw [h, List.mem_append] at hc
      rcases hc with hc | hc
      · exact ih c hc
      · exact ⟨ch, by simpa using hc⟩

theorem chunk_incomplete_of_zero (CS size : Int) (ch : Chunk) (hCS : CS ≠ 0)
    (h0 : ch.knownBytes = 0) : ch.isComplete CS size = false := by
  unfold Chunk.isComplete Chunk.getChunkSize
  rw [h0]
  split
  · rename_i h
    simp only [beq_eq_false_iff_ne, ne_eq]
    exact fun e => h.2 e.symm
  · simp only [beq_eq_false_iff_ne, ne_eq]
    exact fun e => hCS e.symm

theorem setHashes_fold_snd_nil (CS : Int) (hs : List Hash) (f : File) (n : Nat)
    (hc : f.complete = false) (hCS : CS ≠ 0) :
    ((List.range n).foldl (File.setHashesBody CS hs) (f, [])).2 = [] := by
  induction n with
  | zero => rfl
  | succ n ih =>
    rw [List.range_succ, List.foldl_append, List.foldl_cons, List.foldl_nil]
    rcases setHashesBody_snd CS hs ((List.range n).foldl (File.setHashesBody CS hs) (f, [])) n
      with h | ⟨ch, hcomp, hkb, _⟩
    · rw [h]; exact ih
    · exfalso
      rw [setHashes_fold_fst] at hkb hcomp
      have hz : ch.knownBytes = 0 := by
        rw [hkb]
        simp [File.chunkKnownBytes, File.isComplete, hc, toInt]
      rw [chunk_incomplete_of_zero CS _ ch hCS hz] at hcomp
      exact Bool.false_ne_true hcomp


theorem setToUnfinished_created (sfx : QString) (CS : Int) (size : Int) (hashes : List Hash)
    (now : Int) (d : Int) (f : File) :
    (f.setToUnfinished sfx CS size hashes now true true d).result = Result.ok () ∧
    (f.setToUnfinished sfx CS size hashes now true true d).file.dateLastModified = d ∧
    (f.setToUnfinished sfx CS size hashes now true true d).calls =
      [Call.onEntryRemoved f.name] ++ f.chunks.map Call.onChunkRemoved ++
        (File.setHashes CS hashes
          { f with complete := false, name := f.name ++ sfx, size := size,
                   dateLastModified := now, chunks := [] }).2 ++
        [Call.fsOpenWriteOnly (f.dirFullPath ++ (f.name ++ sfx)),
          Call.fsResize (f.dirFullPath ++ (f.name ++ sfx)) size] := by
  have hn : ((File.setHashes CS hashes
      { f with complete := false, name := f.name ++ sfx, size := size,
               dateLastModified := now, chunks := [] }).1).name = f.name ++ sfx := by
    rw [setHashes_fst]
  have hsz : ((File.setHashes CS hashes
      { f with complete := false, name := f.name ++ sfx, size := size,
               dateLastModified := now, chunks := [] }).1).size = size := by
    rw [setHashes_fst]
  have hdir : ((File.setHashes CS hashes
      { f with complete := false, name := f.name ++ sfx, size := size,
               dateLastModified := now, chunks := [] }).1).dirFullPath = f.dirFullPath := by
    rw [setHashes_fst]
  unfold File.setToUnfinished
  simp only [File.deleteAllChunks, File.setSize, File.createPhysicalFile, hn, hsz, hdir,
    File.getFullPath, isFileUnfinished_append]
  simp

theorem setHashes_filter_nil (p : Call → Bool)
    (hp : ∀ ch, p (Call.onChunkHashKnown ch) = false) (CS : Int) (hs : List Hash) (g : File) :
    (g.setHashes CS hs).2.filter p = [] := by
  rw [List.filter_eq_nil_iff]
  intro c hc
  obtain ⟨ch, rfl⟩ := setHashes_fold_calls CS hs g _ c hc
  simp [hp ch]

/-- C14. For every file (complete or not), every new size and every hash list,
`setToUnfinished(size, hashes)` with a successful physical creation returns and leaves:
`complete` false, the old name followed by the unfinished suffix, the new size; `onEntryRemoved`
was called once, for the old name; `onChunkRemoved` was called once for every chunk the file
had, in order, and for nothing else; the chunk list has `getNbChunks()` chunks, the chunk at the
position `i` being a new chunk of index `i` with no known byte and the hash `hashes[i]` (null
when there is none). -/
theorem c14_setToUnfinished (sfx : QString) (CS : Int) (size : Int) (hashes : List Hash)
    (now : Int) (fsDate : Int) (f : File) :
    (f.setToUnfinished sfx CS size hashes now true true fsDate).result = Result.ok () ∧
    (f.setToUnfinished sfx CS size hashes now true true fsDate).file.complete = false ∧
    (f.setToUnfinished sfx CS size hashes now true true fsDate).file.name = f.name ++ sfx ∧
    (f.setToUnfinished sfx CS size hashes now true true fsDate).file.size = size ∧
    (f.setToUnfinished sfx CS size hashes now true true fsDate).calls.filter Call.isOnEntryRemoved
      = [Call.onEntryRemoved f.name] ∧
    (f.setToUnfinished sfx CS size hashes now true true fsDate).calls.filter Call.isOnChunkRemoved
      = f.chunks.map Call.onChunkRemoved ∧
    (f.setToUnfinished sfx CS size hashes now true true fsDate).file.chunks.length
      = (getNbChunks CS size).toNat ∧
    (∀ (i : Nat)
      (hi : i < (f.setToUnfinished sfx CS size hashes now true true fsDate).file.chunks.length),
      ((f.setToUnfinished sfx CS size hashes now true true fsDate).file.chunks.get ⟨i, hi⟩).num
        = i ∧
      ((f.setToUnfinished sfx CS size hashes now true true fsDate).file.chunks.get
        ⟨i, hi⟩).knownBytes = 0 ∧
      ((f.setToUnfinished sfx CS size hashes now true true fsDate).file.chunks.get ⟨i, hi⟩).hash
        = if i < hashes.length ∧ (hashes.getD i Hash.null).isNull = false then
            hashes.getD i Hash.null else Hash.null) := by
  obtain ⟨hres, _, hcalls⟩ := setToUnfinished_created sfx CS size hashes now fsDate f
  obtain ⟨d2, hd2⟩ := setToUnfinished_file sfx CS size hashes now true true fsDate f
  refine ⟨hres, by rw [hd2], by rw [hd2], by rw [hd2], ?_, ?_, by rw [hd2]; simp, ?_⟩
  · rw [hcalls]
    simp only [List.filter_append, setHashes_filter_nil Call.isOnEntryRemoved (fun _ => rfl)]
    simp [List.filter_eq_nil_iff, Call.isOnEntryRemoved]
  · rw [hcalls]
    simp only [List.filter_append, setHashes_filter_nil Call.isOnChunkRemoved (fun _ => rfl)]
    simp [List.filter_eq_self, Call.isOnChunkRemoved]
  · intro i hi
    have hc : (f.setToUnfinished sfx CS size hashes now true true fsDate).file.chunks =
        (List.range (getNbChunks CS size).toNat).map
          (File.seedChunk CS hashes { f with complete := false, size := size }) := by
      rw [hd2]
    simp only [List.get_eq_getElem, List.getElem_of_eq hc, List.getElem_map, List.getElem_range]
    simp [File.seedChunk, File.chunkKnownBytes, File.isComplete, toInt]

/-- C15, as stated, fails. The complete file `b` is set to unfinished with a size of one byte
and one non-null hash: the new chunk has the hash and no known byte, and `onChunkHashKnown` is
not called. -/
theorem c15_counterexample :
    Sample.shared.complete = true ∧
    (Sample.shared.setToUnfinished Sample.suffix Sample.chunkSize 1 [Hash.bytes [9]] 9 true true
      10).file.chunks = [{ num := 0, knownBytes := 0, hash := Hash.bytes [9] }] ∧
    (Sample.shared.setToUnfinished Sample.suffix Sample.chunkSize 1 [Hash.bytes [9]] 9 true true
      10).calls.filter Call.isOnChunkHashKnown = [] := by
  decide

/-- C15, amended. After `setToUnfinished(size, hashes)` (for a positive `CHUNK_SIZE`) the new
chunks are not registered in the chunk-hash index: `onChunkHashKnown` is not called. A new chunk
given a non-null hash has that hash, no known byte, and is not complete, and `setHashes`
notifies the Cache for complete chunks only. -/
theorem c15_new_chunks_not_registered (sfx : QString) (CS : Int) (size : Int)
    (hashes : List Hash) (now : Int) (fsDate : Int) (f : File) (hCS : 0 < CS) :
    (f.setToUnfinished sfx CS size hashes now true true fsDate).calls.filter
        Call.isOnChunkHashKnown = [] ∧
    (∀ (i : Nat)
      (hi : i < (f.setToUnfinished sfx CS size hashes now true true fsDate).file.chunks.length),
      i < hashes.length → (hashes.getD i Hash.null).isNull = false →
      ((f.setToUnfinished sfx CS size hashes now true true fsDate).file.chunks.get ⟨i, hi⟩).hash
          = hashes.getD i Hash.null ∧
        ((f.setToUnfinished sfx CS size hashes now true true fsDate).file.chunks.get
          ⟨i, hi⟩).hasHash = true ∧
        ((f.setToUnfinished sfx CS size hashes now true true fsDate).file.chunks.get
          ⟨i, hi⟩).knownBytes = 0 ∧
        ((f.setToUnfinished sfx CS size hashes now true true fsDate).file.chunks.get
          ⟨i, hi⟩).isComplete CS size = false) := by
  obtain ⟨_, _, hcalls⟩ := setToUnfinished_created sfx CS size hashes now fsDate f
  obtain ⟨d2, hd2⟩ := setToUnfinished_file sfx CS size hashes now true true fsDate f
  constructor
  · rw [hcalls, File.setHashes, setHashes_fold_snd_nil CS hashes _ _ rfl (ne_of_gt hCS)]
    simp [List.filter_eq_nil_iff, Call.isOnChunkHashKnown]
  · intro i hi h1 h2
    have hc : (f.setToUnfinished sfx CS size hashes now true true fsDate).file.chunks =
        (List.range (getNbChunks CS size).toNat).map
          (File.seedChunk CS hashes { f with complete := false, size := size }) := by
      rw [hd2]
    have hkb : ((f.setToUnfinished sfx CS size hashes now true true fsDate).file.chunks.get
        ⟨i, hi⟩).knownBytes = 0 := by
      simp only [List.get_eq_getElem, List.getElem_of_eq hc, List.getElem_map,
        List.getElem_range]
      simp [File.seedChunk, File.chunkKnownBytes, File.isComplete, toInt]
    have hh : ((f.setToUnfinished sfx CS size hashes now true true fsDate).file.chunks.get
        ⟨i, hi⟩).hash = hashes.getD i Hash.null := by
      simp only [List.get_eq_getElem, List.getElem_of_eq hc, List.getElem_map,
        List.getElem_range]
      simp only [File.seedChunk]
      rw [if_pos ⟨h1, h2⟩]
    refine ⟨hh, ?_, hkb, chunk_incomplete_of_zero CS size _ (ne_of_gt hCS) hkb⟩
    rw [Chunk.hasHash, hh, h2]
    rfl

/-- C15, amended, on the complete file `b` set to unfinished with one non-null hash. -/
theorem c15_new_chunks_not_registered_witness :
    (0 : Int) < Sample.chunkSize ∧
    (Sample.shared.setToUnfinished Sample.suffix Sample.chunkSize 1 [Hash.bytes [9]] 9 true true
      10).calls.filter Call.isOnChunkHashKnown = [] :=
  ⟨by decide,
    (c15_new_chunks_not_registered Sample.suffix Sample.chunkSize 1 [Hash.bytes [9]] 9 10
      Sample.shared (by decide)).1⟩

/-- C16. `deleteIfIncomplete` on a complete file leaves the file as it is, not deleted, and
makes no call (no removal, no release, no chunk unregistered). On a file that is not complete
it calls `forceReleaseAll` for the path of the file, sets both handle slots to null, asks the
file system to remove the file (a failure is logged), and then deletes the entity: the directory
and the chunks are told, `onChunkRemoved` is called for every chunk, the two null slots are
released and `Entry::del` ends the entity. -/
theorem c16_deleteIfIncomplete (removeOk : Bool) (f : File) :
    (f.complete = true → f.deleteIfIncomplete removeOk = (some f, []))
    ∧ (f.complete = false →
      f.deleteIfIncomplete removeOk =
        (none,
          [Call.poolForceReleaseAll f.getFullPath, Call.fsRemove f.getFullPath] ++
            (if removeOk = false then [Call.logWarning] else []) ++
            [Call.dirFileDeleted f.name] ++ f.chunks.map Call.chunkFileDeleted ++
            f.chunks.map Call.onChunkRemoved ++
            [Call.poolRelease none true, Call.poolRelease none true, Call.entryDel true]) ∧
      (f.removeUnfinishedFiles removeOk).1.fileInReadMode = none ∧
      (f.removeUnfinishedFiles removeOk).1.fileInWriteMode = none) := by
  constructor
  · intro h
    simp [File.deleteIfIncomplete, h]
  · intro h
    simp [File.deleteIfIncomplete, File.removeUnfinishedFiles, File.del, File.deleteAllChunks, h]

/-- C16 on the complete file `b` and on the unfinished download `a` with open handles. -/
theorem c16_deleteIfIncomplete_witness :
    Sample.shared.complete = true ∧
    Sample.shared.deleteIfIncomplete true = (some Sample.shared, []) ∧
    Sample.opened.complete = false ∧
    (Sample.opened.deleteIfIncomplete true).1 = none ∧
    (Sample.opened.deleteIfIncomplete true).2
      = [Call.poolForceReleaseAll "/share/a.unfinished".toList,
          Call.fsRemove "/share/a.unfinished".toList,
          Call.dirFileDeleted "a.unfinished".toList,
          Call.chunkFileDeleted { num := 0, knownBytes := 0, hash := Hash.null },
          Call.onChunkRemoved { num := 0, knownBytes := 0, hash := Hash.null },
          Call.poolRelease none true, Call.poolRelease none true, Call.entryDel true] :=
  ⟨by decide, (c16_deleteIfIncomplete true Sample.shared).1 (by decide), by decide,
    congrArg Prod.fst ((c16_deleteIfIncomplete true Sample.opened).2 (by decide)).1,
    by decide⟩

/-- C17, on the code. The complete file `b` (32 MiB and one byte) is set to unfinished with a
size of 100 bytes: the size is 100 after the call and `Directory::fileSizeChanged` was not
called, whereas `FileForHasher::setSize(100)` on the same file calls it once, with the old and
the new size. In general `setToUnfinished(size, hashes)` stores the new size and never calls
`Directory::fileSizeChanged`, and `FileForHasher::setSize(size)` calls it exactly when the size
changes. -/
theorem c17_setToUnfinished_no_propagation :
    (Sample.shared.size = 33554433 ∧
      (Sample.shared.setToUnfinished Sample.suffix Sample.chunkSize 100 [] 9 true true
        10).file.size = 100 ∧
      (Sample.shared.setToUnfinished Sample.suffix Sample.chunkSize 100 [] 9 true true
        10).calls.filter Call.isDirFileSizeChanged = [] ∧
      (FileForHasher.setSize 100 Sample.shared).2 = [Call.dirFileSizeChanged 33554433 100] ∧
      (FileForHasher.setSize 100 Sample.shared).1.size = 100)
    ∧ (∀ (sfx : QString) (CS size : Int) (hashes : List Hash) (now fsDate : Int) (f : File),
      (f.setToUnfinished sfx CS size hashes now true true fsDate).file.size = size ∧
      (f.setToUnfinished sfx CS size hashes now true true fsDate).calls.filter
        Call.isDirFileSizeChanged = [])
    ∧ (∀ (size : Int) (f : File),
      (f.size ≠ size →
        FileForHasher.setSize size f = (f.setSize size, [Call.dirFileSizeChanged f.size size])) ∧
      (f.size = size → FileForHasher.setSize size f = (f, []))) := by
  refine ⟨by decide, ?_, ?_⟩
  · intro sfx CS size hashes now fsDate f
    obtain ⟨_, _, hcalls⟩ := setToUnfinished_created sfx CS size hashes now fsDate f
    obtain ⟨d2, hd2⟩ := setToUnfinished_file sfx CS size hashes now true true fsDate f
    refine ⟨by rw [hd2], ?_⟩
    rw [hcalls]
    simp only [List.filter_append, setHashes_filter_nil Call.isDirFileSizeChanged (fun _ => rfl)]
    simp [List.filter_eq_nil_iff, Call.isDirFileSizeChanged]
  · intro size f
    constructor
    · intro h; simp [FileForHasher.setSize, h]
    · intro h; simp [FileForHasher.setSize, h]

theorem handleOp_keeps (sfx : QString) (CS : Int) (f : File) (op : HandleOp)
    (hw : f.fileInWriteMode ≠ none → 1 ≤ f.numDataWriter)
    (hr : f.fileInReadMode ≠ none → 1 ≤ f.numDataReader) :
    ((op.run sfx CS f).fileInWriteMode ≠ none → 1 ≤ (op.run sfx CS f).numDataWriter) ∧
    ((op.run sfx CS f).fileInReadMode ≠ none → 1 ≤ (op.run sfx CS f).numDataReader) := by
  cases op with
  | newDataWriterCreated opened fileCreated resizeOk =>
    simp only [HandleOp.run, File.newDataWriterCreated]
    by_cases h1 : f.numDataWriter + 1 = 1
    · simp only [h1, if_true]
      cases opened with
      | none => exact ⟨fun h => absurd rfl h, hr⟩
      | some h =>
        cases fileCreated <;> cases resizeOk <;> simp [h1, hr] <;> exact hr
    · simp only [h1, if_false]
      exact ⟨fun h => by have := hw h; omega, hr⟩
  | dataWriterDeleted =>
    simp only [HandleOp.run, File.dataWriterDeleted]
    by_cases h1 : f.numDataWriter - 1 = 0
    · simp only [h1, if_true]
      exact ⟨fun h => absurd rfl h, hr⟩
    · simp only [h1, if_false]
      exact ⟨fun h => by have := hw h; omega, hr⟩
  | newDataReaderCreated opened =>
    simp only [HandleOp.run, File.newDataReaderCreated]
    by_cases h1 : f.numDataReader + 1 = 1
    · simp only [h1, if_true]
      cases opened with
      | none => exact ⟨hw, fun h => absurd rfl h⟩
      | some h => exact ⟨hw, fun _ => by simp only; omega⟩
    · simp only [h1, if_false]
      exact ⟨hw, fun h => by have := hr h; omega⟩
  | dataReaderDeleted =>
    simp only [HandleOp.run, File.dataReaderDeleted]
    by_cases h1 : f.numDataReader - 1 = 0
    · simp only [h1, if_true]
      exact ⟨hw, fun h => absurd rfl h⟩
    · simp only [h1, if_false]
      exact ⟨hw, fun h => by have := hr h; omega⟩
  | write nbBytes offset seekOk written =>
    have : (f.write nbBytes offset seekOk written).file = f := by
      unfold File.write
      split
      · rfl
      · split_ifs <;> rfl
    simp only [HandleOp.run, this]
    exact ⟨hw, hr⟩
  | read offset maxBytesToRead seekOk bytesRead =>
    have : (f.read offset maxBytesToRead seekOk bytesRead).file = f := by
      unfold File.read
      split
      · rfl
      · split_ifs <;> rfl
    simp only [HandleOp.run, this]
    exact ⟨hw, hr⟩
  | chunkComplete chunk renameOk fsDate =>
    simp only [HandleOp.run]
    rcases chunkComplete_fst sfx CS chunk renameOk fsDate f with h | h
    · rw [h]; exact ⟨hw, hr⟩
    · rw [h]
      unfold File.setAsComplete
      split_ifs <;> first | exact ⟨hw, hr⟩ | exact ⟨fun h => absurd rfl h, fun h => absurd rfl h⟩
  | setAsComplete renameOk fsDate =>
    simp only [HandleOp.run]
    unfold File.setAsComplete
    split_ifs <;> first | exact ⟨hw, hr⟩ | exact ⟨fun h => absurd rfl h, fun h => absurd rfl h⟩
  | removeUnfinishedFiles removeOk =>
    simp only [HandleOp.run, File.removeUnfinishedFiles]
    split_ifs <;> first | exact ⟨hw, hr⟩ | exact ⟨fun h => absurd rfl h, fun h => absurd rfl h⟩

theorem runHandleOps_keeps (sfx : QString) (CS : Int) (ops : List HandleOp) (f : File)
    (hw : f.fileInWriteMode ≠ none → 1 ≤ f.numDataWriter)
    (hr : f.fileInReadMode ≠ none → 1 ≤ f.numDataReader) :
    ((runHandleOps sfx CS f ops).fileInWriteMode ≠ none →
        1 ≤ (runHandleOps sfx CS f ops).numDataWriter) ∧
    ((runHandleOps sfx CS f ops).fileInReadMode ≠ none →
        1 ≤ (runHandleOps sfx CS f ops).numDataReader) := by
  induction ops generalizing f with
  | nil => exact ⟨hw, hr⟩
  | cons op ops ih =>
    obtain ⟨k1, k2⟩ := handleOp_keeps sfx CS f op hw hr
    exact ih _ k1 k2

/-- C19. In every state reached from a file built by the constructor by a sequence of calls of
`newDataWriterCreated`, `dataWriterDeleted`, `newDataReaderCreated`, `dataReaderDeleted`,
`write`, `read`, `chunkComplete`, `setAsComplete` and `removeUnfinishedFiles`, with any answers
of the collaborators, the calls that raise and the releases without an acquisition included: a
write handle that is not null implies `numDataWriter ≥ 1` and a read handle that is not null
implies `numDataReader ≥ 1`. -/
theorem c19_handle_implies_count (sfx : QString) (CS : Int) (dir name : QString)
    (size date : Int) (hashes : List Hash) (cp o r : Bool) (d : Int) (f : File)
    (calls : List Call) (ops : List HandleOp)
    (hbuilt : File.ctor sfx CS dir name size date hashes cp o r d = Result.ok (f, calls)) :
    ((runHandleOps sfx CS f ops).fileInWriteMode ≠ none →
        1 ≤ (runHandleOps sfx CS f ops).numDataWriter) ∧
    ((runHandleOps sfx CS f ops).fileInReadMode ≠ none →
        1 ≤ (runHandleOps sfx CS f ops).numDataReader) := by
  obtain ⟨d2, hd2⟩ := ctor_ok_file sfx CS dir name size date hashes cp o r d f calls hbuilt
  apply runHandleOps_keeps
  · rw [hd2]; intro h; exact absurd rfl h
  · rw [hd2]; intro h; exact absurd rfl h

/-- C19 on the download `a` after a sequence with a failed open, a failed completion, a
removal and releases without an acquisition. -/
theorem c19_handle_implies_count_witness :
    File.ctor Sample.suffix Sample.chunkSize Sample.share "a".toList 1 0 [] true true true 5
        = Result.ok (Sample.download, Sample.downloadCalls) ∧
    (runHandleOps Sample.suffix Sample.chunkSize Sample.download Sample.handleOps).fileInWriteMode
      = some 3 ∧
    ((runHandleOps Sample.suffix Sample.chunkSize Sample.download
        Sample.handleOps).fileInWriteMode ≠ none →
      1 ≤ (runHandleOps Sample.suffix Sample.chunkSize Sample.download
        Sample.handleOps).numDataWriter) ∧
    ((runHandleOps Sample.suffix Sample.chunkSize Sample.download
        Sample.handleOps).fileInReadMode ≠ none →
      1 ≤ (runHandleOps Sample.suffix Sample.chunkSize Sample.download
        Sample.handleOps).numDataReader) :=
  ⟨by decide, by decide,
    c19_handle_implies_count Sample.suffix Sample.chunkSize Sample.share "a".toList 1 0 [] true
      true true 5 Sample.download Sample.downloadCalls Sample.handleOps (by decide)⟩

/-- C20. For every offset and every `maxBytesToRead`, `read` on a file whose read handle is
null returns 0, raises nothing, makes no call and changes no member; `write` on a file whose
write handle is null raises `IOErrorException`, whatever the arguments. Both slots are null
once `setAsComplete` has released the handles of an unfinished file with a reader or a writer,
and once `removeUnfinishedFiles` has run on a file that is not complete. -/
theorem c20_null_handles (nbBytes offset maxBytesToRead : Int) (seekOk : Bool)
    (answer : Int) (f : File) :
    (∀ (sfx : QString) (renameOk : Bool) (fsDate : Int),
      isFileUnfinished sfx f.name = true → (f.numDataReader > 0 ∨ f.numDataWriter > 0) →
      (f.setAsComplete sfx renameOk fsDate).1.fileInReadMode = none ∧
      (f.setAsComplete sfx renameOk fsDate).1.fileInWriteMode = none)
    ∧ (∀ removeOk : Bool, f.complete = false →
      (f.removeUnfinishedFiles removeOk).1.fileInReadMode = none ∧
      (f.removeUnfinishedFiles removeOk).1.fileInWriteMode = none)
    ∧ (f.fileInReadMode = none →
      (f.read offset maxBytesToRead seekOk answer).result = Result.ok 0 ∧
      (f.read offset maxBytesToRead seekOk answer).calls = [] ∧
      (f.read offset maxBytesToRead seekOk answer).file = f)
    ∧ (f.fileInWriteMode = none →
      (f.write nbBytes offset seekOk answer).result = Result.raised Exn.IOErrorException ∧
      (f.write nbBytes offset seekOk answer).calls = [] ∧
      (f.write nbBytes offset seekOk answer).file = f) := by
  refine ⟨?_, ?_, ?_, ?_⟩
  · intro sfx renameOk fsDate hu hn
    unfold File.setAsComplete
    simp only [hu, hn, if_true]
    split_ifs <;> exact ⟨rfl, rfl⟩
  · intro removeOk h
    simp [File.removeUnfinishedFiles, h]
  · intro h
    simp [File.read, h]
  · intro h
    simp [File.write, h]

/-- C20 on the download `a`: with no handle open, and with its handles open once
`removeUnfinishedFiles` has run. -/
theorem c20_null_handles_witness :
    Sample.download.fileInReadMode = none ∧
    (Sample.download.read 0 10 true 1).result = Result.ok 0 ∧
    Sample.download.fileInWriteMode = none ∧
    (Sample.download.write 10 0 true 1).result = Result.raised Exn.IOErrorException ∧
    ((Sample.opened.removeUnfinishedFiles true).1.read 0 10 true 1).result = Result.ok 0 :=
  ⟨by decide, ((c20_null_handles 10 0 10 true 1 Sample.download).2.2.1 (by decide)).1,
    by decide, ((c20_null_handles 10 0 10 true 1 Sample.download).2.2.2 (by decide)).1,
    by decide⟩

theorem sum_known_bytes (n : Nat) (r CS : Int) :
    ((List.range n).map (fun i : Nat => if i + 1 = n ∧ r ≠ 0 then r else CS)).sum =
      if n = 0 then 0 else ((n : Int) - 1) * CS + (if r ≠ 0 then r else CS) := by
  cases n with
  | zero => simp
  | succ m =>
    rw [List.range_succ, List.map_append, List.sum_append]
    have h1 : (List.range m).map (fun i : Nat => if i + 1 = m + 1 ∧ r ≠ 0 then r else CS)
        = (List.range m).map (fun _ => CS) := by
      apply List.map_congr_left
      intro i hi
      have : i < m := List.mem_range.mp hi
      have hne : ¬ (i + 1 = m + 1) := by omega
      simp [hne]
    rw [h1]
    simp

/-- C18, as stated, fails. With chunks of 32 MiB, the complete file `a` of 2^56 bytes is built
with no chunk (`getNbChunks()`, an `int`, is negative): the known bytes sum to 0, not to the
size. -/
theorem c18_counterexample :
    isFileUnfinished Sample.suffix "a".toList = false ∧
    ((File.ctor Sample.suffix Sample.chunkSize Sample.share "a".toList 72057594037927936 0 []
        false true true 0).value?.map (fun p => (p.1.chunks.map Chunk.knownBytes).sum)) = some 0 := by
  decide

theorem ctor_complete_chunks (sfx : QString) (CS : Int) (dir name : QString) (size date : Int)
    (hashes : List Hash) (o r : Bool) (d : Int) (f : File) (calls : List Call)
    (hCS : 0 < CS) (hCS2 : CS < 2147483648) (hsize : 0 ≤ size)
    (hrange : Int.ceil ((size : ℚ) / (CS : ℚ)) < 2147483648)
    (hname : isFileUnfinished sfx name = false)
    (hbuilt : File.ctor sfx CS dir name size date hashes false o r d = Result.ok (f, calls)) :
    f.chunks.length = (size / CS + (if size % CS = 0 then 0 else 1)).toNat ∧
    f.chunks.map Chunk.knownBytes =
      (List.range f.chunks.length).map
        (fun i : Nat => if i + 1 = f.chunks.length ∧ size % CS ≠ 0 then size % CS else CS) := by
  obtain ⟨d2, hd2⟩ := ctor_ok_file sfx CS dir name size date hashes false o r d f calls hbuilt
  have hN : getNbChunks CS size = size / CS + (if size % CS = 0 then 0 else 1) := by
    rw [getNbChunks_eq_ceil CS size hCS hsize hrange, ceil_div_eq CS size hCS]
  have hq : 0 ≤ size / CS := Int.ediv_nonneg hsize (le_of_lt hCS)
  have hr0 : 0 ≤ size % CS := Int.emod_nonneg _ (ne_of_gt hCS)
  have hr1 : size % CS < CS := Int.emod_lt_of_pos _ hCS
  have hlen : f.chunks.length = (size / CS + (if size % CS = 0 then 0 else 1)).toNat := by
    rw [hd2]; simp [hN]
  refine ⟨hlen, ?_⟩
  have hcomp : (File.init sfx dir name size date false).complete = true := by
    simp [File.init, hname]
  have hchunks : f.chunks = (List.range f.chunks.length).map
      ((File.init sfx dir name size date false).seedChunk CS hashes) := by
    rw [hlen, hd2, hN]
  rw [hchunks, List.map_map]
  simp only [List.length_map, List.length_range]
  apply List.map_congr_left
  intro i hi
  have hi2 : i < f.chunks.length := List.mem_range.mp hi
  have hNn : ((f.chunks.length : Nat) : Int) = size / CS + (if size % CS = 0 then 0 else 1) := by
    rw [hlen]
    have : 0 ≤ size / CS + (if size % CS = 0 then 0 else 1) := by split <;> omega
    omega
  have hiff : ((i : Int) = getNbChunks CS size - 1) ↔ i + 1 = f.chunks.length := by
    rw [hN, ← hNn]; omega
  have hsz : (File.init sfx dir name size date false).size = size := rfl
  simp only [Function.comp, File.seedChunk, File.chunkKnownBytes, File.isComplete, hcomp,
    File.getNbChunks, hsz, Int.tmod_eq_emod hsize (le_of_lt hCS)]
  by_cases hc : i + 1 = f.chunks.length ∧ size % CS ≠ 0
  · rw [if_pos hc]
    simp only [Bool.not_true, Bool.false_eq_true, if_false]
    rw [if_pos ⟨hiff.mpr hc.1, hc.2⟩]
    exact toInt_of_lt _ hr0 (by omega)
  · rw [if_neg hc]
    simp only [Bool.not_true, Bool.false_eq_true, if_false]
    rw [if_neg (fun h => hc ⟨hiff.mp h.1, h.2⟩)]
    exact toInt_of_lt _ (le_of_lt hCS) hCS2

/-- C18, amended. For a `CHUNK_SIZE` that is a positive `int`, every size ≥ 0 with
⌈size / CHUNK_SIZE⌉ < 2^31 and a name without the unfinished suffix, the file built by the
constructor with `createPhysically = false` gives every chunk the known bytes `CHUNK_SIZE`,
except the last one, which gets `size mod CHUNK_SIZE` when that is not zero; the known bytes of
all chunks sum to the size, and each is between 1 and `CHUNK_SIZE`. -/
theorem c18_initial_known_bytes (sfx : QString) (CS : Int) (dir name : QString)
    (size date : Int) (hashes : List Hash) (o r : Bool) (d : Int) (f : File) (calls : List Call)
    (hCS : 0 < CS) (hCS2 : CS < 2147483648) (hsize : 0 ≤ size)
    (hrange : Int.ceil ((size : ℚ) / (CS : ℚ)) < 2147483648)
    (hname : isFileUnfinished sfx name = false)
    (hbuilt : File.ctor sfx CS dir name size date hashes false o r d = Result.ok (f, calls)) :
    (∀ (i : Nat) (hi : i < f.chunks.length),
      (f.chunks.get ⟨i, hi⟩).knownBytes =
        if i + 1 = f.chunks.length ∧ size % CS ≠ 0 then size % CS else CS)
    ∧ (f.chunks.map Chunk.knownBytes).sum = size
    ∧ (∀ c ∈ f.chunks, 1 ≤ c.knownBytes ∧ c.knownBytes ≤ CS) := by
  obtain ⟨hlen, hkb⟩ := ctor_complete_chunks sfx CS dir name size date hashes o r d f calls
    hCS hCS2 hsize hrange hname hbuilt
  have hq : 0 ≤ size / CS := Int.ediv_nonneg hsize (le_of_lt hCS)
  have hr0 : 0 ≤ size % CS := Int.emod_nonneg _ (ne_of_gt hCS)
  have hr1 : size % CS < CS := Int.emod_lt_of_pos _ hCS
  have hdecomp : CS * (size / CS) + size % CS = size := Int.ediv_add_emod size CS
  have hget : ∀ (i : Nat) (hi : i < f.chunks.length),
      (f.chunks.get ⟨i, hi⟩).knownBytes =
        if i + 1 = f.chunks.length ∧ size % CS ≠ 0 then size % CS else CS := by
    intro i hi
    have h1 : (f.chunks.map Chunk.knownBytes).get ⟨i, by simpa using hi⟩
        = (f.chunks.get ⟨i, hi⟩).knownBytes := by simp
    rw [← h1, List.get_eq_getElem, List.getElem_of_eq hkb]
    simp
  refine ⟨hget, ?_, ?_⟩
  · rw [hkb, sum_known_bytes]
    by_cases hz : size % CS = 0
    · simp only [hz, if_true, add_zero, ne_eq, not_true_eq_false, if_false] at hlen ⊢
      rw [hz] at hdecomp
      by_cases hn : f.chunks.length = 0
      · simp only [hn, if_true]
        have : size / CS = 0 := by omega
        rw [this] at hdecomp; omega
      · simp only [hn, if_false]
        have : ((f.chunks.length : Nat) : Int) = size / CS := by omega
        rw [this]; linarith
    · simp only [hz, if_false, ne_eq, not_false_eq_true, if_true] at hlen ⊢
      have hn : f.chunks.length ≠ 0 := by omega
      simp only [hn, if_false]
      have : ((f.chunks.length : Nat) : Int) = size / CS + 1 := by omega
      rw [this]; linarith
  · intro c hc
    obtain ⟨i, hi, rfl⟩ := List.mem_iff_get.mp hc
    rw [hget i.1 i.2]
    split
    · rename_i h
      have := h.2
      omega
    · omega

/-- C18, amended, on the shared file `b` of 32 MiB and one byte: its two chunks have 32 MiB and
one byte known. -/
theorem c18_initial_known_bytes_witness :
    ((0 : Int) < Sample.chunkSize ∧ Sample.chunkSize < 2147483648 ∧ (0 : Int) ≤ 33554433 ∧
      Int.ceil (((33554433 : Int) : ℚ) / ((Sample.chunkSize : Int) : ℚ)) < 2147483648 ∧
      isFileUnfinished Sample.suffix "b".toList = false ∧
      File.ctor Sample.suffix Sample.chunkSize Sample.share "b".toList 33554433 0 Sample.hashes
        false true true 0 = Result.ok (Sample.shared, Sample.sharedCalls)) ∧
    (Sample.shared.chunks.map Chunk.knownBytes).sum = 33554433 ∧
    Sample.shared.chunks.map Chunk.knownBytes = [33554432, 1] :=
  ⟨⟨by decide, by decide, by decide,
      by rw [ceil_div_eq Sample.chunkSize 33554433 (by decide)]; decide, by decide, by decide⟩,
    (c18_initial_known_bytes Sample.suffix Sample.chunkSize Sample.share "b".toList 33554433 0
      Sample.hashes true true 0 Sample.shared Sample.sharedCalls (by decide) (by decide)
      (by decide) (by rw [ceil_div_eq Sample.chunkSize 33554433 (by decide)]; decide)
      (by decide) (by decide)).2.1,
    by decide⟩

/-- C21. `newDataWriterCreated` leaves `numDataWriter` greater by exactly one on every outcome,
the calls that raise `UnableToOpenFileInWriteModeException` or `FileResetException` included.
When a first call fails because the pool did not open the file (the count went from 0 to 1 and
the one call made is the open), a second call made right after it makes no call, returns
without an exception and leaves the write handle null, with a count of 2. The same holds for
`newDataReaderCreated` with `numDataReader` and `UnableToOpenFileInReadModeException`. -/
theorem c21_increment_not_rolled_back (f : File) :
    (∀ (opened : Option Nat) (fileCreated resizeOk : Bool),
      (f.newDataWriterCreated opened fileCreated resizeOk).file.numDataWriter
        = f.numDataWriter + 1)
    ∧ (∀ (fileCreated resizeOk : Bool) (opened2 : Option Nat) (fileCreated2 resizeOk2 : Bool),
      (f.newDataWriterCreated none fileCreated resizeOk).result
          = Result.raised Exn.UnableToOpenFileInWriteModeException →
        f.numDataWriter = 0 ∧
        (f.newDataWriterCreated none fileCreated resizeOk).calls
          = [Call.poolOpen f.getFullPath OpenMode.ReadWrite] ∧
        ((f.newDataWriterCreated none fileCreated resizeOk).file.newDataWriterCreated opened2
          fileCreated2 resizeOk2).calls = [] ∧
        ((f.newDataWriterCreated none fileCreated resizeOk).file.newDataWriterCreated opened2
          fileCreated2 resizeOk2).result = Result.ok () ∧
        ((f.newDataWriterCreated none fileCreated resizeOk).file.newDataWriterCreated opened2
          fileCreated2 resizeOk2).file.fileInWriteMode = none ∧
        ((f.newDataWriterCreated none fileCreated resizeOk).file.newDataWriterCreated opened2
          fileCreated2 resizeOk2).file.numDataWriter = 2)
    ∧ (∀ opened : Option Nat,
      (f.newDataReaderCreated opened).file.numDataReader = f.numDataReader + 1)
    ∧ (∀ opened2 : Option Nat,
      (f.newDataReaderCreated none).result
          = Result.raised Exn.UnableToOpenFileInReadModeException →
        f.numDataReader = 0 ∧
        (f.newDataReaderCreated none).calls
          = [Call.poolOpen f.getFullPath OpenMode.ReadOnly] ∧
        ((f.newDataReaderCreated none).file.newDataReaderCreated opened2).calls = [] ∧
        ((f.newDataReaderCreated none).file.newDataReaderCreated opened2).result
          = Result.ok () ∧
        ((f.newDataReaderCreated none).file.newDataReaderCreated opened2).file.fileInReadMode
          = none ∧
        ((f.newDataReaderCreated none).file.newDataReaderCreated opened2).file.numDataReader
          = 2) := by
  refine ⟨?_, ?_, ?_, ?_⟩
  · intro opened fileCreated resizeOk
    unfold File.newDataWriterCreated
    by_cases h1 : f.numDataWriter + 1 = 1
    · simp only [h1, if_true]
      cases opened with
      | none => rfl
      | some h => cases fileCreated <;> cases resizeOk <;> simp [h1]
    · simp only [h1, if_false]
  · intro fileCreated resizeOk opened2 fileCreated2 resizeOk2 hfail
    have h0 : f.numDataWriter = 0 := by
      by_contra hne
      have h1 : ¬ (f.numDataWriter + 1 = 1) := by omega
      simp [File.newDataWriterCreated, h1] at hfail
    refine ⟨h0, ?_⟩
    simp [File.newDataWriterCreated, File.getFullPath, h0]
  · intro opened
    unfold File.newDataReaderCreated
    by_cases h1 : f.numDataReader + 1 = 1
    · simp only [h1, if_true]
      cases opened <;> rfl
    · simp only [h1, if_false]
  · intro opened2 hfail
    have h0 : f.numDataReader = 0 := by
      by_contra hne
      have h1 : ¬ (f.numDataReader + 1 = 1) := by omega
      simp [File.newDataReaderCreated, h1] at hfail
    refine ⟨h0, ?_⟩
    simp [File.newDataReaderCreated, File.getFullPath, h0]

/-- C21 on the download `a`: an open that fails followed by a second call, for a writer and
for a reader, and a call that raises `FileResetException` with its byte known. -/
theorem c21_increment_not_rolled_back_witness :
    (Sample.download.newDataWriterCreated none true true).result
      = Result.raised Exn.UnableToOpenFileInWriteModeException ∧
    (Sample.downloaded.newDataWriterCreated (some 3) true true).result
      = Result.raised Exn.FileResetException ∧
    (Sample.downloaded.newDataWriterCreated (some 3) true true).file.numDataWriter
      = Sample.downloaded.numDataWriter + 1 ∧
    ((Sample.download.newDataWriterCreated none true true).file.newDataWriterCreated (some 3)
      true true).result = Result.ok () ∧
    (Sample.download.newDataReaderCreated none).result
      = Result.raised Exn.UnableToOpenFileInReadModeException ∧
    ((Sample.download.newDataReaderCreated none).file.newDataReaderCreated (some 4)).calls = [] :=
  ⟨by decide, by decide,
    (c21_increment_not_rolled_back Sample.downloaded).1 (some 3) true true,
    ((c21_increment_not_rolled_back Sample.download).2.1 true true (some 3) true true
      (by decide)).2.2.2.1,
    by decide,
    ((c21_increment_not_rolled_back Sample.download).2.2.2 (some 4) (by decide)).2.2.1⟩

end DLAN
